import Mathlib

/-!
Verification of the bmarwell.de static-site asset build pipeline.

This file gives a shallow embedding, in Lean 4, of the decision logic of the
build scripts (avatar download with redirect following, image-format
classification and conditional optimization, the WebP quality search, the
HTML reference rewriting, and the best-effort pre-compression stage), and
proves or refutes the specified properties about them.

Modelling conventions:
- bytes are natural numbers, byte buffers are `List Nat`;
- file paths and document text are `List Char`;
- external codecs (optipng, mozjpeg, sharp, brotli, pako, zstd) are
  abstract function parameters: the scripts only observe the bytes they
  return (and whether they fail, modelled by `Option`);
- the HTTP server is an abstract function from URL to response, and the
  unbounded redirect recursion of `downloadAvatar` is modelled with a fuel
  parameter where `none` denotes a computation that exhausts every fuel
  bound, i.e. never settles;
- the regex substitutions of `updateHTMLReferences` are modelled by a
  literal/character-class token matcher with leftmost, non-overlapping,
  maximal-munch semantics, which coincides with JavaScript regex semantics
  for every pattern used by the script (after each `\s*` and `\d+` the
  pattern continues with a character outside the class, so greedy matching
  never needs to backtrack).
-/

/-! ## Source Fetcher: `downloadAvatar` (scripts/download-avatar.js) -/

/-- An HTTP response as observed by the script: status code, the value of
the `Location` header, the status message, and the body bytes. -/
structure HResponse where
  status : Nat
  location : List Char
  message : List Char
  body : List Nat
deriving DecidableEq

/-- The result of one `https.get`: either a response or a transport error. -/
inductive NetReply where
  | response (r : HResponse)
  | transportError (msg : List Char)
deriving DecidableEq

/-- An abstract server: what each URL answers. -/
def Server : Type := List Char → NetReply

/-- The settled outcome of `downloadAvatar`: resolution with the body, or a
rejection.  The code rejects with `new Error("HTTP <status>: <message>")`
for a non-200, non-redirect response, and with the transport error
otherwise; both carry exactly the data recorded here. -/
inductive FetchOutcome where
  | success (body : List Nat)
  | httpError (status : Nat) (msg : List Char)
  | netError (msg : List Char)
deriving DecidableEq

/-- The recursive `download` closure of `downloadAvatar` (part_002 lines
28-51), with a fuel bound added so that the recursion is a total Lean
function: `none` means the recursion is still running after `fuel` hops,
so `(∀ fuel, downloadFuel srv fuel url = none)` says the promise never
settles.  The code follows a redirect exactly when the status is 301 or
302, rejects when the status is not 200, and resolves with the body
otherwise. -/
def downloadFuel (srv : Server) : Nat → List Char → Option FetchOutcome
  | 0, _ => none
  | fuel + 1, url =>
    match srv url with
    | NetReply.transportError m => some (FetchOutcome.netError m)
    | NetReply.response r =>
      if r.status = 301 ∨ r.status = 302 then
        downloadFuel srv fuel r.location
      else if r.status ≠ 200 then
        some (FetchOutcome.httpError r.status r.message)
      else
        some (FetchOutcome.success r.body)

/-! ## Format Classifier and Optimizer: `optimizeImage` (part_002 lines 57-112) -/

/-- Detected image format, from the two magic-byte tests. -/
inductive ImgFormat where
  | png
  | jpeg
  | unknown
deriving DecidableEq

/-- Line 64: `originalBuffer[0] === 0x89 && originalBuffer[1] === 0x50`. -/
def isPNGb (buf : List Nat) : Bool :=
  buf[0]? == some 0x89 && buf[1]? == some 0x50

/-- Line 65: `originalBuffer[0] === 0xFF && originalBuffer[1] === 0xD8`. -/
def isJPEGb (buf : List Nat) : Bool :=
  buf[0]? == some 0xFF && buf[1]? == some 0xD8

/-- Lines 67-76: format string and extension selection.  Both `if`s are
independent assignments; `unknown` keeps the initial `.png` extension. -/
def classify (buf : List Nat) : ImgFormat :=
  if isPNGb buf then ImgFormat.png
  else if isJPEGb buf then ImgFormat.jpeg
  else ImgFormat.unknown

/-- The extension chosen at lines 68-76: `.jpg` exactly for JPEG, `.png`
for PNG and for unknown bytes. -/
def chosenExt (buf : List Nat) : List Char :=
  if isJPEGb buf then ".jpg".toList else ".png".toList

/-- Line 81: `filePath.replace(/\.(png|jpg|jpeg)$/, extension)`.  The
regex is anchored at the end of the string, so at most one replacement
happens, on whichever of the three suffixes the path ends with. -/
def replaceExt (p ext : List Char) : List Char :=
  if ".png".toList.isSuffixOf p then p.take (p.length - 4) ++ ext
  else if ".jpg".toList.isSuffixOf p then p.take (p.length - 4) ++ ext
  else if ".jpeg".toList.isSuffixOf p then p.take (p.length - 5) ++ ext
  else p

/-- The observable result of `optimizeImage`: detected format, the path
the master ends up at, whether the file was renamed, and the bytes stored
at that path afterwards. -/
structure OptimizeResult where
  format : ImgFormat
  path : List Char
  renamed : Bool
  stored : List Nat
deriving DecidableEq

/-- `optimizeImage` (part_002 lines 57-108) over abstract codecs.
`pngC` is `imagemin` with the optipng plugin, `jpgC` with the mozjpeg
plugin; the plugin list is chosen by `isPNG` alone (line 92), so JPEG and
unknown buffers both go to mozjpeg.  The master file is overwritten with
the codec output only when that output is strictly smaller than the
original (line 99); otherwise the original bytes stay on disk. -/
def optimizeImage (pngC jpgC : List Nat → List Nat) (filePath : List Char)
    (buf : List Nat) : OptimizeResult :=
  let correctPath := replaceExt filePath (chosenExt buf)
  let optimized := if isPNGb buf then pngC buf else jpgC buf
  { format := classify buf
    path := correctPath
    renamed := decide (correctPath ≠ filePath)
    stored := if optimized.length < buf.length then optimized else buf }

/-! ## Variant Generator: `createWebP` quality search (part_002 lines 114-145) -/

/-- The fixed descending quality catalog of line 119. -/
def webpQualities : List Nat := [80, 75, 70, 65, 60]

/-- One quality level qualifies when the encoder succeeds at it and the
output is strictly smaller than the size threshold the loop compares
against. -/
def qualifies (enc : Nat → Option (List Nat)) (sz q : Nat) : Prop :=
  ∃ w, enc q = some w ∧ w.length < sz

instance (enc : Nat → Option (List Nat)) (sz q : Nat) :
    Decidable (qualifies enc sz q) := by
  unfold qualifies
  cases enc q with
  | none => exact Decidable.isFalse (by simp)
  | some w => exact decidable_of_iff (w.length < sz) (by simp)

/-- The `for (const quality of qualities)` loop of lines 121-140: at each
level the encode is attempted; a throw (`none`) is absorbed and the next
level tried; a successful encode is written and the loop exited by
`break` exactly when its length is strictly below the threshold.  Returns
the written (quality, bytes) if any, together with the list of quality
levels that were attempted, in order. -/
def webpTry (enc : Nat → Option (List Nat)) (sz : Nat) :
    List Nat → Option (Nat × List Nat) × List Nat
  | [] => (none, [])
  | q :: qs =>
    match enc q with
    | some w =>
      if w.length < sz then (some (q, w), [q])
      else
        let t := webpTry enc sz qs
        (t.1, q :: t.2)
    | none =>
      let t := webpTry enc sz qs
      (t.1, q :: t.2)

/-! ## The composed avatar pipeline (part_002 `main`, lines 228-250)

`main` downloads the avatar to `dist/avatar.png`, runs `optimizeImage`,
which calls `createWebP(correctPath, originalSize)` (line 111) — note the
second argument is the length of the originally fetched buffer — and then
runs `updateHTMLReferences`.  The `sharp(sourcePath)` inside the loop
reads the stored master file, so the encoder is applied to the stored
bytes. -/

/-- Everything the avatar pipeline leaves behind except the HTML rewrite:
master state, the full-size WebP file if one was written, the quality
levels attempted, and the value of the `AVATAR_WEBP_FILENAME` global after
`createWebP` ran.  That global is initialized to `'avatar.webp'` (line 21)
and is assigned again on search success (line 134); it is never cleared. -/
structure AvatarAssets where
  master : OptimizeResult
  webpFile : Option (List Char × List Nat)
  attempted : List Nat
  webpFilenameVar : List Char
deriving DecidableEq

/-- `optimizeImage` followed by the `createWebP` quality search, with the
call-site threshold `originalSize = buf.length` of line 111.  `enc m q`
is `sharp(master).webp({quality: q}).toBuffer()` on master bytes `m`. -/
def avatarAssets (pngC jpgC : List Nat → List Nat)
    (enc : List Nat → Nat → Option (List Nat)) (buf : List Nat) :
    AvatarAssets :=
  let master := optimizeImage pngC jpgC "dist/avatar.png".toList buf
  let webpPath := replaceExt master.path ".webp".toList
  let t := webpTry (enc master.stored) buf.length webpQualities
  { master := master
    webpFile := t.1.map (fun qw => (webpPath, qw.2))
    attempted := t.2
    webpFilenameVar := match t.1 with
      | some _ => webpPath
      | none => "dist/avatar.webp".toList }

/-! ## Compression Stage (compress-brotli.js, part_003 = gzip, part_005 = zstd) -/

/-- The three configured algorithms. -/
inductive Alg where
  | brotli
  | gzip
  | zstd
deriving DecidableEq

/-- `FILES_TO_COMPRESS` of each script (line 13 of each). -/
def algFiles : Alg → List (List Char)
  | Alg.brotli => ["index.html".toList, "bmarwell.asc".toList]
  | Alg.gzip =>
    ["index.html".toList, "bmarwell-apache.asc".toList,
     "bmarwell-personal.asc".toList]
  | Alg.zstd =>
    ["index.html".toList, "bmarwell-apache.asc".toList,
     "bmarwell-personal.asc".toList]

/-- The sibling-artifact suffix of each script (`${filePath}.br` etc.). -/
def algSuffix : Alg → List Char
  | Alg.brotli => ".br".toList
  | Alg.gzip => ".gz".toList
  | Alg.zstd => ".zst".toList

/-- `path.join(DIST_DIR, file)` with `DIST_DIR = 'dist'`. -/
def distPath (f : List Char) : List Char := "dist/".toList ++ f

/-- A file system: bytes stored at each path, `none` when absent. -/
def FileSys : Type := List Char → Option (List Nat)

/-- Writing one file. -/
def fsWrite (fs : FileSys) (p : List Char) (b : List Nat) : FileSys :=
  fun q => if q = p then some b else fs q

/-- `compressFile` (lines 15-37 of each script): read the source, run the
codec, write the sibling artifact; any failure (read error or codec
throw, modelled by `none`) is caught and logged, leaving the file system
unchanged. -/
def compressFile (comp : List Nat → Option (List Nat)) (suffix : List Char)
    (fs : FileSys) (p : List Char) : FileSys :=
  match fs p with
  | none => fs
  | some content =>
    match comp content with
    | none => fs
    | some out => fsWrite fs (p ++ suffix) out

/-- The `main` loop (lines 39-53): for each listed file, `fs.access` is
tried first; a missing file produces a warning and a skip, a present file
goes through `compressFile`.  No branch aborts the loop and the stage
always runs to completion. -/
def compressStage (comp : List Nat → Option (List Nat)) (suffix : List Char)
    (files : List (List Char)) (fs : FileSys) : FileSys :=
  files.foldl
    (fun acc f =>
      let p := distPath f
      match acc p with
      | none => acc
      | some _ => compressFile comp suffix acc p)
    fs

/-- One whole compression script for a configured algorithm. -/
def runStage (alg : Alg) (comp : List Nat → Option (List Nat))
    (fs : FileSys) : FileSys :=
  compressStage comp (algSuffix alg) (algFiles alg) fs

/-! ## Reference Rewriter: `updateHTMLReferences` (part_002 lines 172-226)

The six `html.replace(regex, repl)` calls use only literal characters,
`\s*` and `\d+`.  We model a pattern as a token list. -/

/-- One regex token: a literal run, a starred character class, or a
plussed character class. -/
inductive PTok where
  | lit (l : List Char)
  | star (cls : Char → Bool)
  | plus (cls : Char → Bool)

/-- Greedy match of a token list against a prefix of `s`; returns the
matched text and the remainder.  For every pattern in the script the
character after a class run is outside the class, so greedy matching
agrees with JavaScript regex semantics. -/
def matchToks : List PTok → List Char → Option (List Char × List Char)
  | [], s => some ([], s)
  | PTok.lit l :: ts, s =>
    if l.isPrefixOf s then
      match matchToks ts (s.drop l.length) with
      | some (m, r) => some (l ++ m, r)
      | none => none
    else none
  | PTok.star cls :: ts, s =>
    match matchToks ts (s.dropWhile cls) with
    | some (m, r) => some (s.takeWhile cls ++ m, r)
    | none => none
  | PTok.plus cls :: ts, s =>
    if s.takeWhile cls = [] then none
    else
      match matchToks ts (s.dropWhile cls) with
      | some (m, r) => some (s.takeWhile cls ++ m, r)
      | none => none

/-- Fuel-driven worker for `replaceAllP`.  The fuel only makes the
recursion structural (hence kernel-evaluable); `replaceAllP` always
supplies enough fuel, and `replaceGo_congr` shows any sufficient fuel
gives the same answer. -/
def replaceGo (p : List PTok) (r : List Char) : Nat → List Char → List Char
  | _, [] => []
  | 0, s => s
  | fuel + 1, c :: cs =>
    match matchToks p (c :: cs) with
    | some (m, rest) =>
      if m = [] then c :: replaceGo p r fuel cs
      else r ++ replaceGo p r fuel rest
    | none => c :: replaceGo p r fuel cs

/-- `String.prototype.replace` with a `/g` regex: scan left to right; at a
match, emit the replacement and continue after the match; otherwise copy
one character.  (A pattern matching the empty string falls back to
copying, which never happens for the patterns of the script: they all
contain nonempty literals.) -/
def replaceAllP (p : List PTok) (r : List Char) (s : List Char) : List Char :=
  replaceGo p r s.length s

/-- JavaScript `\d`. -/
def isDigitC (c : Char) : Bool := c.isDigit

/-- JavaScript `\s` (restricted to the whitespace actually seen in HTML). -/
def isSpaceC (c : Char) : Bool := c.isWhitespace

/-- The placeholder: the original remote avatar URL. -/
def urlG : List Char := "https://github.com/bmarwell.png".toList

/-- Line 192: `/srcset="https:\/\/github\.com\/bmarwell\.png"/g`. -/
def pSrcset : List PTok := [PTok.lit ("srcset=\"".toList ++ urlG ++ "\"".toList)]

/-- Line 198: `/src="https:\/\/github\.com\/bmarwell\.png"/g`. -/
def pSrc : List PTok := [PTok.lit ("src=\"".toList ++ urlG ++ "\"".toList)]

/-- Line 203: `/content="https:\/\/github\.com\/bmarwell\.png"/g`. -/
def pContent : List PTok :=
  [PTok.lit ("content=\"".toList ++ urlG ++ "\"".toList)]

/-- Line 208: `/"image":\s*"https:\/\/github\.com\/bmarwell\.png"/g`. -/
def pImage : List PTok :=
  [PTok.lit "\"image\":".toList, PTok.star isSpaceC,
   PTok.lit ("\"".toList ++ urlG ++ "\"".toList)]

/-- Line 213: `/<meta property="og:image:width" content="\d+">/g`. -/
def ogwPre : List Char := "<meta property=\"og:image:width\" content=\"".toList

/-- Line 218: `/<meta property="og:image:height" content="\d+">/g`. -/
def oghPre : List Char := "<meta property=\"og:image:height\" content=\"".toList

/-- The closing literal of both dimension patterns. -/
def ogClose : List Char := "\">".toList

def pOgW : List PTok := [PTok.lit ogwPre, PTok.plus isDigitC, PTok.lit ogClose]

def pOgH : List PTok := [PTok.lit oghPre, PTok.plus isDigitC, PTok.lit ogClose]

/-- Replacement of line 193 (fixed text, referencing the sized WebP
variants). -/
def rSrcset : List Char :=
  ("srcset=\"/avatar-150w.webp 150w, /avatar-300w.webp 300w, " ++
   "/avatar-460w.webp 460w\" sizes=\"(max-width: 460px) 150px, " ++
   "(max-width: 768px) 300px, 460px\"").toList

/-- Replacement of line 199; `af` is `AVATAR_FILENAME`. -/
def rSrc (af : List Char) : List Char :=
  ("srcset=\"/avatar-150w.jpg 150w, /avatar-300w.jpg 300w, " ++
   "/avatar-460w.jpg 460w\" sizes=\"(max-width: 460px) 150px, " ++
   "(max-width: 768px) 300px, 460px\" src=\"/").toList ++ af ++ "\"".toList

/-- Replacement of line 204: `content="https://bmarwell.de/<file>"`. -/
def rContent (af : List Char) : List Char :=
  "content=\"https://bmarwell.de/".toList ++ af ++ "\"".toList

/-- Replacement of line 209. -/
def rImage (af : List Char) : List Char :=
  "\"image\":\"https://bmarwell.de/".toList ++ af ++ "\"".toList

/-- Replacement of line 214; `w` is the decimal rendering of the width
read from the master image metadata. -/
def rOgW (w : List Char) : List Char := ogwPre ++ w ++ ogClose

/-- Replacement of line 219. -/
def rOgH (h : List Char) : List Char := oghPre ++ h ++ ogClose

/-- `updateHTMLReferences` (part_002 lines 172-226) as a document
transformer.  `af` is the avatar file name (`AVATAR_FILENAME`), `hasWebp`
the truthiness of `AVATAR_WEBP_FILENAME` at line 178, and `wStr`/`hStr`
the decimal renderings of the dimensions that `sharp` reports for the
stored master. -/
def updateHTML (af : List Char) (hasWebp : Bool) (wStr hStr : List Char)
    (html : List Char) : List Char :=
  let h1 := if hasWebp then replaceAllP pSrcset rSrcset html else html
  let h2 := replaceAllP pSrc (rSrc af) h1
  let h3 := replaceAllP pContent (rContent af) h2
  let h4 := replaceAllP pImage (rImage af) h3
  let h5 := replaceAllP pOgW (rOgW wStr) h4
  replaceAllP pOgH (rOgH hStr) h5

/-- The whole avatar pipeline of `main` (part_002 lines 228-250): fetchthe
bytes (taken as input), optimize, run the WebP quality search, then
rewrite the document.  `AVATAR_FILENAME` is the basename of the master
path (the path always starts with the five characters `dist/`), and the
WebP guard at line 178 tests the truthiness of `AVATAR_WEBP_FILENAME`. -/
structure AvatarRun where
  assets : AvatarAssets
  html : List Char
deriving DecidableEq

def avatarMain (pngC jpgC : List Nat → List Nat)
    (enc : List Nat → Nat → Option (List Nat)) (wStr hStr : List Char)
    (buf : List Nat) (html0 : List Char) : AvatarRun :=
  let assets := avatarAssets pngC jpgC enc buf
  let af := assets.master.path.drop 5
  { assets := assets
    html := updateHTML af (!assets.webpFilenameVar.isEmpty) wStr hStr html0 }

/-- Stability of a document under one substitution: every greedy match of
`p` anywhere in `s` is exactly the replacement text `r`, so replacing
changes nothing.  This is the invariant that makes the dimension
substitutions of `updateHTMLReferences` idempotent. -/
def Okay (p : List PTok) (r : List Char) (s : List Char) : Prop :=
  ∀ i m z, matchToks p (s.drop i) = some (m, z) → m = r

/-! ## Lemmas about the matcher and scanner -/

/-- A successful match splits the input: `s = m ++ r`. -/
theorem matchToks_eq_append {ts : List PTok} {s m r : List Char}
    (h : matchToks ts s = some (m, r)) : s = m ++ r := by
  induction ts generalizing s m r with
  | nil =>
    simp only [matchToks, Option.some.injEq, Prod.mk.injEq] at h
    simp [← h.1, ← h.2]
  | cons t ts ih =>
    cases t with
    | lit l =>
      simp only [matchToks] at h
      split at h
      · rename_i hpre
        cases hm : matchToks ts (s.drop l.length) with
        | none => rw [hm] at h; exact absurd h (by simp)
        | some mr =>
          rw [hm] at h
          obtain ⟨m1, r1⟩ := mr
          simp only [Option.some.injEq, Prod.mk.injEq] at h
          have hs := ih hm
          have hl : l <+: s := by
            rw [← List.isPrefixOf_iff_prefix]; exact hpre
          obtain ⟨t2, ht2⟩ := hl
          subst ht2
          rw [← h.1, ← h.2]
          simp only [List.append_assoc, List.append_cancel_left_eq]
          simpa using hs
      · exact absurd h (by simp)
    | star cls =>
      simp only [matchToks] at h
      cases hm : matchToks ts (s.dropWhile cls) with
      | none => rw [hm] at h; exact absurd h (by simp)
      | some mr =>
        rw [hm] at h
        obtain ⟨m1, r1⟩ := mr
        simp only [Option.some.injEq, Prod.mk.injEq] at h
        have hs := ih hm
        rw [← h.1, ← h.2]
        conv_lhs => rw [← List.takeWhile_append_dropWhile (p := cls) (l := s)]
        simp [hs]
    | plus cls =>
      simp only [matchToks] at h
      split at h
      · exact absurd h (by simp)
      · cases hm : matchToks ts (s.dropWhile cls) with
        | none => rw [hm] at h; exact absurd h (by simp)
        | some mr =>
          rw [hm] at h
          obtain ⟨m1, r1⟩ := mr
          simp only [Option.some.injEq, Prod.mk.injEq] at h
          have hs := ih hm
          rw [← h.1, ← h.2]
          conv_lhs => rw [← List.takeWhile_append_dropWhile (p := cls) (l := s)]
          simp [hs]

theorem replaceGo_congr (p : List PTok) (r : List Char) :
    ∀ n f1 f2 s, s.length ≤ n → s.length ≤ f1 → s.length ≤ f2 →
      replaceGo p r f1 s = replaceGo p r f2 s := by
  intro n
  induction n with
  | zero =>
    intro f1 f2 s h1 _ _
    have hs : s = [] := List.length_eq_zero.mp (Nat.le_zero.mp h1)
    subst hs
    cases f1 <;> cases f2 <;> rfl
  | succ n ih =>
    intro f1 f2 s hn h1 h2
    cases s with
    | nil => cases f1 <;> cases f2 <;> rfl
    | cons c cs =>
      simp only [List.length_cons] at hn h1 h2
      cases f1 with
      | zero => omega
      | succ k1 =>
        cases f2 with
        | zero => omega
        | succ k2 =>
          simp only [replaceGo]
          cases hM : matchToks p (c :: cs) with
          | none =>
            have := ih k1 k2 cs (by omega) (by omega) (by omega)
            rw [this]
          | some mr =>
            obtain ⟨m, rest⟩ := mr
            by_cases hm : m = []
            · have := ih k1 k2 cs (by omega) (by omega) (by omega)
              simp [hm, this]
            · have hs := matchToks_eq_append hM
              have hml : 0 < m.length := List.length_pos.mpr hm
              have hlen : (c :: cs).length = m.length + rest.length := by
                rw [hs, List.length_append]
              simp only [List.length_cons] at hlen
              have := ih k1 k2 rest (by omega) (by omega) (by omega)
              simp [hm, this]

theorem replaceAllP_nil (p : List PTok) (r : List Char) :
    replaceAllP p r [] = [] := rfl

theorem replaceAllP_cons_match {p : List PTok} {r : List Char}
    {c : Char} {cs m rest : List Char}
    (h : matchToks p (c :: cs) = some (m, rest)) (hm : m ≠ []) :
    replaceAllP p r (c :: cs) = r ++ replaceAllP p r rest := by
  have hs := matchToks_eq_append h
  have hml : 0 < m.length := List.length_pos.mpr hm
  have hlen : (c :: cs).length = m.length + rest.length := by
    rw [hs, List.length_append]
  simp only [List.length_cons] at hlen
  unfold replaceAllP
  simp only [List.length_cons, replaceGo, h, if_neg hm]
  congr 1
  exact replaceGo_congr p r rest.length cs.length rest.length rest
    (le_refl _) (by omega) (le_refl _)

theorem replaceAllP_cons_none {p : List PTok} {r : List Char}
    {c : Char} {cs : List Char}
    (h : matchToks p (c :: cs) = none) :
    replaceAllP p r (c :: cs) = c :: replaceAllP p r cs := by
  unfold replaceAllP
  simp only [List.length_cons, replaceGo, h]

/-! ## Lemmas about the WebP quality search -/

theorem webpTry_none_iff (enc : Nat → Option (List Nat)) (sz : Nat) :
    ∀ qs, (webpTry enc sz qs).1 = none ↔ ∀ q ∈ qs, ¬ qualifies enc sz q := by
  intro qs
  induction qs with
  | nil => simp [webpTry]
  | cons q qs ih =>
    simp only [webpTry]
    cases he : enc q with
    | some w =>
      by_cases hlt : w.length < sz
      · simp only [if_pos hlt]
        constructor
        · intro h; exact absurd h (by simp)
        · intro h; exact absurd ⟨w, he, hlt⟩ (h q (by simp))
      · simp only [if_neg hlt]
        rw [ih]
        constructor
        · intro h q1 hq1
          rcases List.mem_cons.mp hq1 with rfl | hq1
          · rintro ⟨w1, hw1, hlt1⟩
            rw [he] at hw1
            injection hw1 with e
            subst e
            exact hlt hlt1
          · exact h q1 hq1
        · intro h q1 hq1; exact h q1 (List.mem_cons_of_mem _ hq1)
    | none =>
      rw [ih]
      constructor
      · intro h q1 hq1
        rcases List.mem_cons.mp hq1 with rfl | hq1
        · rintro ⟨w1, hw1, _⟩
          rw [he] at hw1
          exact absurd hw1 (by simp)
        · exact h q1 hq1
      · intro h q1 hq1; exact h q1 (List.mem_cons_of_mem _ hq1)

theorem webpTry_none_attempted (enc : Nat → Option (List Nat)) (sz : Nat) :
    ∀ qs, (webpTry enc sz qs).1 = none → (webpTry enc sz qs).2 = qs := by
  intro qs
  induction qs with
  | nil => intro _; rfl
  | cons q qs ih =>
    intro h
    simp only [webpTry] at h ⊢
    cases he : enc q with
    | some w =>
      rw [he] at h
      dsimp only at h ⊢
      by_cases hlt : w.length < sz
      · rw [if_pos hlt] at h; exact absurd h (by simp)
      · rw [if_neg hlt] at h ⊢
        simp only [List.cons.injEq, true_and]
        exact ih h
    | none =>
      rw [he] at h
      dsimp only at h ⊢
      simp only [List.cons.injEq, true_and]
      exact ih h

theorem webpTry_some_spec (enc : Nat → Option (List Nat)) (sz : Nat) :
    ∀ qs q w, (webpTry enc sz qs).1 = some (q, w) →
      enc q = some w ∧ w.length < sz ∧
      ∃ qs1 qs2, qs = qs1 ++ q :: qs2 ∧
        (∀ q1 ∈ qs1, ¬ qualifies enc sz q1) ∧
        (webpTry enc sz qs).2 = qs1 ++ [q] := by
  intro qs
  induction qs with
  | nil => intro q w h; exact absurd h (by simp [webpTry])
  | cons q0 qs ih =>
    intro q w h
    simp only [webpTry] at h ⊢
    cases he : enc q0 with
    | some w0 =>
      rw [he] at h
      dsimp only at h ⊢
      by_cases hlt : w0.length < sz
      · rw [if_pos hlt] at h ⊢
        simp only [Option.some.injEq, Prod.mk.injEq] at h
        obtain ⟨rfl, rfl⟩ := h
        exact ⟨he, hlt, [], qs, rfl, by simp, rfl⟩
      · rw [if_neg hlt] at h ⊢
        obtain ⟨h1, h2, qs1, qs2, hqs, hfail, hatt⟩ := ih q w h
        refine ⟨h1, h2, q0 :: qs1, qs2, by simp [hqs], ?_, by simp [hatt]⟩
        intro q1 hq1
        rcases List.mem_cons.mp hq1 with rfl | hq1
        · rintro ⟨w1, hw1, hlt1⟩
          rw [he] at hw1
          injection hw1 with e
          subst e
          exact hlt hlt1
        · exact hfail q1 hq1
    | none =>
      rw [he] at h
      dsimp only at h ⊢
      obtain ⟨h1, h2, qs1, qs2, hqs, hfail, hatt⟩ := ih q w h
      refine ⟨h1, h2, q0 :: qs1, qs2, by simp [hqs], ?_, by simp [hatt]⟩
      intro q1 hq1
      rcases List.mem_cons.mp hq1 with rfl | hq1
      · rintro ⟨w1, hw1, _⟩
        rw [he] at hw1
        exact absurd hw1 (by simp)
      · exact hfail q1 hq1

/-! ## Claim C1 -/

/-- C1: for every fetched buffer, `optimizeImage` overwrites the master
with the recompressed output exactly when that output is strictly smaller
than the original, and keeps the original bytes otherwise; in particular
the stored length never exceeds the fetched length. -/
theorem master_length_le_fetched (pngC jpgC : List Nat → List Nat)
    (fp : List Char) (buf : List Nat) :
    (optimizeImage pngC jpgC fp buf).stored.length ≤ buf.length ∧
    ((if isPNGb buf then pngC buf else jpgC buf).length < buf.length →
      (optimizeImage pngC jpgC fp buf).stored =
        (if isPNGb buf then pngC buf else jpgC buf)) ∧
    (¬ (if isPNGb buf then pngC buf else jpgC buf).length < buf.length →
      (optimizeImage pngC jpgC fp buf).stored = buf) := by
  have hstored : (optimizeImage pngC jpgC fp buf).stored =
      (if (if isPNGb buf then pngC buf else jpgC buf).length < buf.length
        then (if isPNGb buf then pngC buf else jpgC buf) else buf) := rfl
  by_cases hlt : (if isPNGb buf then pngC buf else jpgC buf).length < buf.length
  · rw [hstored, if_pos hlt]
    exact ⟨Nat.le_of_lt hlt, fun _ => rfl, fun h => absurd hlt h⟩
  · rw [hstored, if_neg hlt]
    exact ⟨le_refl _, fun h => absurd h hlt, fun _ => rfl⟩

theorem master_length_le_fetched_witness :
    (optimizeImage (fun _ => [1]) (fun b => b) "dist/avatar.png".toList
      [137, 80, 7]).stored = [1] ∧
    (optimizeImage (fun _ => [1]) (fun b => b) "dist/avatar.png".toList
      [137, 80, 7]).stored.length ≤ 3 := by
  have h := master_length_le_fetched (fun _ => [1]) (fun b => b)
    "dist/avatar.png".toList [137, 80, 7]
  refine ⟨?_, by simpa using h.1⟩
  have h2 := h.2.1 (by decide)
  rw [h2]
  decide

/-! ## Claim C9 -/

/-- C9: bytes that match neither magic are classified `unknown`, keep the
`.png` name (no rename), and are recompressed through the JPEG (mozjpeg)
codec, because the plugin choice at line 92 tests only `isPNG`. -/
theorem unknown_bytes_jpeg_codec_png_name (pngC jpgC : List Nat → List Nat)
    (buf : List Nat) (hp : isPNGb buf = false) (hj : isJPEGb buf = false) :
    (optimizeImage pngC jpgC "dist/avatar.png".toList buf).format =
      ImgFormat.unknown ∧
    (optimizeImage pngC jpgC "dist/avatar.png".toList buf).path =
      "dist/avatar.png".toList ∧
    (optimizeImage pngC jpgC "dist/avatar.png".toList buf).renamed = false ∧
    (optimizeImage pngC jpgC "dist/avatar.png".toList buf).stored =
      (if (jpgC buf).length < buf.length then jpgC buf else buf) := by
  unfold optimizeImage classify chosenExt
  simp [hp, hj]
  decide

theorem unknown_bytes_jpeg_codec_png_name_witness :
    (optimizeImage (fun _ => [7]) (fun _ => [8]) "dist/avatar.png".toList
      [0, 0, 0]).format = ImgFormat.unknown ∧
    (optimizeImage (fun _ => [7]) (fun _ => [8]) "dist/avatar.png".toList
      [0, 0, 0]).path = "dist/avatar.png".toList ∧
    (optimizeImage (fun _ => [7]) (fun _ => [8]) "dist/avatar.png".toList
      [0, 0, 0]).renamed = false ∧
    (optimizeImage (fun _ => [7]) (fun _ => [8]) "dist/avatar.png".toList
      [0, 0, 0]).stored = [8] := by
  have h := unknown_bytes_jpeg_codec_png_name (fun _ => [7]) (fun _ => [8])
    [0, 0, 0] (by decide) (by decide)
  refine ⟨h.1, h.2.1, h.2.2.1, ?_⟩
  rw [h.2.2.2]
  decide

/-- One unfolding step of `downloadFuel` at positive fuel. -/
theorem downloadFuel_succ (srv : Server) (fuel : Nat) (url : List Char) :
    downloadFuel srv (fuel + 1) url =
      match srv url with
      | NetReply.transportError m => some (FetchOutcome.netError m)
      | NetReply.response r =>
        if r.status = 301 ∨ r.status = 302 then
          downloadFuel srv fuel r.location
        else if r.status ≠ 200 then
          some (FetchOutcome.httpError r.status r.message)
        else
          some (FetchOutcome.success r.body) := rfl

/-! ## Claim C10 -/

/-- C10: the redirect recursion has no hop bound: whenever every URL of a
set redirects (301/302) to another URL of the same set, the download
never settles — `downloadFuel` answers `none` at every fuel, i.e. the
promise neither resolves nor rejects. -/
theorem redirect_cycle_never_settles (srv : Server) (S : List (List Char))
    (hcyc : ∀ u ∈ S, ∃ r, srv u = NetReply.response r ∧
      (r.status = 301 ∨ r.status = 302) ∧ r.location ∈ S) :
    ∀ fuel, ∀ u ∈ S, downloadFuel srv fuel u = none := by
  intro fuel
  induction fuel with
  | zero => intro u _; rfl
  | succ fuel ih =>
    intro u hu
    obtain ⟨r, hr, hst, hloc⟩ := hcyc u hu
    rw [downloadFuel_succ, hr]
    simp only [if_pos hst]
    exact ih r.location hloc

theorem redirect_cycle_never_settles_witness :
    downloadFuel
      (fun u =>
        if u = urlG then
          NetReply.response ⟨301, "https://example.com/loop".toList, [], []⟩
        else NetReply.response ⟨302, urlG, [], []⟩)
      9 urlG = none := by
  refine redirect_cycle_never_settles _ [urlG, "https://example.com/loop".toList]
    ?_ 9 urlG (by simp)
  intro u hu
  rcases List.mem_pair.mp hu with rfl | rfl
  · exact ⟨⟨301, "https://example.com/loop".toList, [], []⟩, by simp, Or.inl rfl,
      by simp⟩
  · exact ⟨⟨302, urlG, [], []⟩, by decide, Or.inr rfl, by simp⟩

/-! ## Claim C6 -/

/-- C6 (amended): the fetcher follows exactly the 301 and 302 redirect
responses, reissuing against the `Location` value; a response with any
other non-200 status — including the other 3xx statuses — settles in one
step with a single rejection carrying the status and message, and a
transport failure settles with a single rejection carrying its message. -/
theorem download_follows_301_302_only (srv : Server) (fuel : Nat)
    (url : List Char) :
    (∀ r, srv url = NetReply.response r → (r.status = 301 ∨ r.status = 302) →
      downloadFuel srv (fuel + 1) url = downloadFuel srv fuel r.location) ∧
    (∀ r, srv url = NetReply.response r → r.status ≠ 301 → r.status ≠ 302 →
      r.status ≠ 200 →
      downloadFuel srv (fuel + 1) url =
        some (FetchOutcome.httpError r.status r.message)) ∧
    (∀ r, srv url = NetReply.response r → r.status = 200 →
      downloadFuel srv (fuel + 1) url = some (FetchOutcome.success r.body)) ∧
    (∀ m, srv url = NetReply.transportError m →
      downloadFuel srv (fuel + 1) url = some (FetchOutcome.netError m)) := by
  refine ⟨?_, ?_, ?_, ?_⟩
  · intro r hr hst
    rw [downloadFuel_succ, hr]
    simp [hst]
  · intro r hr h1 h2 h3
    rw [downloadFuel_succ, hr]
    have hst : ¬ (r.status = 301 ∨ r.status = 302) := by
      rintro (e | e) <;> [exact h1 e; exact h2 e]
    simp [hst, h3]
  · intro r hr h200
    rw [downloadFuel_succ, hr]
    have hst : ¬ (r.status = 301 ∨ r.status = 302) := by
      rintro (e | e) <;> omega
    simp [hst, h200]
  · intro m hm
    rw [downloadFuel_succ, hm]

theorem download_follows_301_302_only_witness :
    downloadFuel
      (fun u =>
        if u = urlG then
          NetReply.response ⟨302, "https://avatars.example".toList, [], []⟩
        else NetReply.response ⟨200, [], "OK".toList, [42]⟩)
      2 urlG = some (FetchOutcome.success [42]) := by
  have h := download_follows_301_302_only
    (fun u =>
      if u = urlG then
        NetReply.response ⟨302, "https://avatars.example".toList, [], []⟩
      else NetReply.response ⟨200, [], "OK".toList, [42]⟩)
    1 urlG
  have step := h.1 ⟨302, "https://avatars.example".toList, [], []⟩ (by simp)
    (Or.inr rfl)
  rw [step]
  decide

/-- C6 counterexample: a 307 response with a `Location` header is not
followed: the code rejects with `HTTP 307` even though the redirect
target would answer 200, refuting the claim that every 3xx response with
a `Location` header is transparently followed. -/
theorem redirect_307_not_followed :
    (fun u =>
      if u = urlG then
        NetReply.response
          ⟨307, "https://t.example".toList, "Temporary Redirect".toList, [7]⟩
      else NetReply.response ⟨200, [], "OK".toList, [42]⟩ : Server) urlG =
      NetReply.response
        ⟨307, "https://t.example".toList, "Temporary Redirect".toList, [7]⟩ ∧
    downloadFuel
      (fun u =>
        if u = urlG then
          NetReply.response
            ⟨307, "https://t.example".toList, "Temporary Redirect".toList, [7]⟩
        else NetReply.response ⟨200, [], "OK".toList, [42]⟩)
      5 "https://t.example".toList = some (FetchOutcome.success [42]) ∧
    downloadFuel
      (fun u =>
        if u = urlG then
          NetReply.response
            ⟨307, "https://t.example".toList, "Temporary Redirect".toList, [7]⟩
        else NetReply.response ⟨200, [], "OK".toList, [42]⟩)
      5 urlG =
      some (FetchOutcome.httpError 307 "Temporary Redirect".toList) := by
  refine ⟨by decide, by decide, by decide⟩

/-! ## Claim C8 -/

/-- C8: the three compression scripts do not share one artifact list: the
brotli script compresses `index.html` and `bmarwell.asc`, while the gzip
and zstd scripts compress `index.html`, `bmarwell-apache.asc` and
`bmarwell-personal.asc`; so the two `.asc` files that gzip and zstd
process are never attempted by brotli. -/
theorem compress_file_lists_differ :
    algFiles Alg.brotli ≠ algFiles Alg.gzip ∧
    algFiles Alg.gzip = algFiles Alg.zstd ∧
    "bmarwell-apache.asc".toList ∈ algFiles Alg.gzip ∧
    "bmarwell-apache.asc".toList ∉ algFiles Alg.brotli ∧
    "bmarwell.asc".toList ∈ algFiles Alg.brotli ∧
    "bmarwell.asc".toList ∉ algFiles Alg.gzip := by
  refine ⟨by decide, by decide, by decide, by decide, by decide, by decide⟩

/-! ## Claim C2 -/

/-- C2 (amended): the quality search iterates `[80, 75, 70, 65, 60]` in
order and writes the first level whose encoding is strictly smaller than
the originally fetched byte length (`originalSize`, the second argument
of `createWebP` at line 111) — not the stored master's length, which can
be smaller; it stops there, so no lower quality is attempted; a per-level
encode failure is absorbed; and if no level beats the fetched length, no
WebP file is written and every level was attempted. -/
theorem webp_search_first_fit (pngC jpgC : List Nat → List Nat)
    (enc : List Nat → Nat → Option (List Nat)) (buf : List Nat) :
    ((avatarAssets pngC jpgC enc buf).webpFile =
      (webpTry (enc (avatarAssets pngC jpgC enc buf).master.stored)
          buf.length webpQualities).1.map
        (fun qw =>
          (replaceExt (avatarAssets pngC jpgC enc buf).master.path
            ".webp".toList, qw.2))) ∧
    ((avatarAssets pngC jpgC enc buf).attempted =
      (webpTry (enc (avatarAssets pngC jpgC enc buf).master.stored)
        buf.length webpQualities).2) ∧
    ((webpTry (enc (avatarAssets pngC jpgC enc buf).master.stored)
        buf.length webpQualities).1 = none →
      (avatarAssets pngC jpgC enc buf).webpFile = none ∧
      (avatarAssets pngC jpgC enc buf).attempted = webpQualities) ∧
    ((∀ q ∈ webpQualities,
        ¬ qualifies (enc (avatarAssets pngC jpgC enc buf).master.stored)
          buf.length q) →
      (avatarAssets pngC jpgC enc buf).webpFile = none) ∧
    (∀ q w,
      (webpTry (enc (avatarAssets pngC jpgC enc buf).master.stored)
          buf.length webpQualities).1 = some (q, w) →
      enc (avatarAssets pngC jpgC enc buf).master.stored q = some w ∧
      w.length < buf.length ∧
      ∃ qs1 qs2, webpQualities = qs1 ++ q :: qs2 ∧
        (∀ q1 ∈ qs1,
          ¬ qualifies (enc (avatarAssets pngC jpgC enc buf).master.stored)
            buf.length q1) ∧
        (avatarAssets pngC jpgC enc buf).attempted = qs1 ++ [q] ∧
        (∀ q2 ∈ qs2, q2 ∉ (avatarAssets pngC jpgC enc buf).attempted)) := by
  have hfile : (avatarAssets pngC jpgC enc buf).webpFile =
      ((webpTry (enc (avatarAssets pngC jpgC enc buf).master.stored)
        buf.length webpQualities).1).map
        (fun qw => (replaceExt (avatarAssets pngC jpgC enc buf).master.path
          ".webp".toList, qw.2)) := rfl
  have hattEq : (avatarAssets pngC jpgC enc buf).attempted =
      (webpTry (enc (avatarAssets pngC jpgC enc buf).master.stored)
        buf.length webpQualities).2 := rfl
  refine ⟨hfile, hattEq, ?_, ?_, ?_⟩
  · intro hn
    refine ⟨?_, ?_⟩
    · rw [hfile, hn]
      rfl
    · rw [hattEq]
      exact webpTry_none_attempted _ _ _ hn
  · intro hall
    have hn := (webpTry_none_iff
      (enc (avatarAssets pngC jpgC enc buf).master.stored)
      buf.length webpQualities).mpr hall
    rw [hfile, hn]
    rfl
  · intro q w h
    obtain ⟨h1, h2, qs1, qs2, hqs, hfail, hatt⟩ :=
      webpTry_some_spec _ _ webpQualities q w h
    refine ⟨h1, h2, qs1, qs2, hqs, hfail, by rw [hattEq]; exact hatt, ?_⟩
    intro q2 hq2
    have hnd : webpQualities.Nodup := by decide
    rw [hqs] at hnd
    rw [hattEq, hatt]
    intro hmem
    rcases List.mem_append.mp hmem with hin1 | hinq
    · have hdisj := List.disjoint_of_nodup_append hnd
      exact hdisj hin1 (List.mem_cons_of_mem _ hq2)
    · have hq2q : q2 = q := by simpa using hinq
      subst hq2q
      have := (List.nodup_append.mp hnd).2.1
      exact (List.nodup_cons.mp this).1 hq2

theorem webp_search_first_fit_witness :
    (avatarAssets (fun b => b) (fun b => b) (fun _ _ => none) [5]).webpFile =
      none ∧
    (avatarAssets (fun b => b) (fun b => b) (fun _ _ => none) [5]).attempted =
      webpQualities := by
  have h := webp_search_first_fit (fun b => b) (fun b => b) (fun _ _ => none) [5]
  exact h.2.2.1 (by decide)

/-- C2 counterexample: when the optimizer shrinks the master (from 5
bytes to 3) and every WebP encoding has 4 bytes, the code still writes
the 4-byte WebP at quality 80 because 4 is below the originally fetched
size 5 — although 4 is not below the stored master size 3.  That refutes
the claim as stated, namely that a level is accepted only when its output
is strictly smaller than the master's size. -/
theorem webp_threshold_is_not_master_size :
    (avatarAssets (fun _ => [1, 2, 3]) (fun b => b)
      (fun _ _ => some [9, 9, 9, 9]) [137, 80, 0, 0, 0]).master.stored =
      [1, 2, 3] ∧
    (avatarAssets (fun _ => [1, 2, 3]) (fun b => b)
      (fun _ _ => some [9, 9, 9, 9]) [137, 80, 0, 0, 0]).webpFile =
      some ("dist/avatar.webp".toList, [9, 9, 9, 9]) ∧
    ¬ (([9, 9, 9, 9] : List Nat).length <
        (avatarAssets (fun _ => [1, 2, 3]) (fun b => b)
          (fun _ _ => some [9, 9, 9, 9]) [137, 80, 0, 0, 0]).master.stored.length) := by
  refine ⟨by decide, by decide, by decide⟩

/-! ## Claim C3 -/

set_option maxRecDepth 200000 in
/-- C3: the code violates the claim.  With a master of 5 bytes that the
optimizer cannot shrink and a WebP encoder that always produces 5 bytes,
no quality level qualifies and no WebP file is written — yet the global
`AVATAR_WEBP_FILENAME`, initialized to a truthy value at line 21 and
never cleared, makes the guard at lines 178/190 pass, so the srcset
substitution is still performed and the rewritten document references the
WebP renditions. -/
theorem webp_srcset_substituted_despite_no_webp :
    (avatarMain (fun b => b) (fun b => b) (fun _ _ => some [1, 2, 3, 4, 5])
      "460".toList "460".toList [137, 80, 0, 0, 0]
      ("<img srcset=\"".toList ++ urlG ++ "\">".toList)).assets.webpFile =
      none ∧
    (avatarMain (fun b => b) (fun b => b) (fun _ _ => some [1, 2, 3, 4, 5])
      "460".toList "460".toList [137, 80, 0, 0, 0]
      ("<img srcset=\"".toList ++ urlG ++ "\">".toList)).assets.webpFilenameVar =
      "dist/avatar.webp".toList ∧
    (avatarMain (fun b => b) (fun b => b) (fun _ _ => some [1, 2, 3, 4, 5])
      "460".toList "460".toList [137, 80, 0, 0, 0]
      ("<img srcset=\"".toList ++ urlG ++ "\">".toList)).html =
      "<img ".toList ++ rSrcset ++ ">".toList := by
  refine ⟨by decide, by decide, ?_⟩
  decide

/-! ## Lemmas about the Compression Stage -/

theorem compressFile_frame (comp : List Nat → Option (List Nat))
    (suffix : List Char) (fs : FileSys) (p q : List Char)
    (hq : q ≠ p ++ suffix) :
    compressFile comp suffix fs p q = fs q := by
  unfold compressFile
  cases h1 : fs p with
  | none => rfl
  | some c =>
    dsimp only
    cases h2 : comp c with
    | none => rfl
    | some o =>
      dsimp only
      unfold fsWrite
      rw [if_neg hq]

theorem compressStage_nil (comp : List Nat → Option (List Nat))
    (suffix : List Char) (fs : FileSys) :
    compressStage comp suffix [] fs = fs := rfl

theorem compressStage_cons (comp : List Nat → Option (List Nat))
    (suffix : List Char) (g : List Char) (files : List (List Char))
    (fs : FileSys) :
    compressStage comp suffix (g :: files) fs =
      compressStage comp suffix files
        (match fs (distPath g) with
         | none => fs
         | some _ => compressFile comp suffix fs (distPath g)) := rfl

/-- The stage step for one file rewrites nothing except the sibling
artifact path of that file. -/
theorem compressStage_step_frame (comp : List Nat → Option (List Nat))
    (suffix : List Char) (g : List Char) (fs : FileSys) (q : List Char)
    (hq : q ≠ distPath g ++ suffix) :
    (match fs (distPath g) with
     | none => fs
     | some _ => compressFile comp suffix fs (distPath g)) q = fs q := by
  cases h1 : fs (distPath g) with
  | none => rfl
  | some c => exact compressFile_frame comp suffix fs (distPath g) q hq

theorem compressStage_frame (comp : List Nat → Option (List Nat))
    (suffix : List Char) :
    ∀ files (fs : FileSys) (q : List Char),
      (∀ f ∈ files, q ≠ distPath f ++ suffix) →
      compressStage comp suffix files fs q = fs q := by
  intro files
  induction files with
  | nil => intro fs q _; rfl
  | cons g files ih =>
    intro fs q hq
    rw [compressStage_cons]
    rw [ih _ q (fun f hf => hq f (List.mem_cons_of_mem _ hf))]
    exact compressStage_step_frame comp suffix g fs q (hq g (by simp))

theorem distPath_suffix_inj {a b suffix : List Char}
    (h : distPath a ++ suffix = distPath b ++ suffix) : a = b := by
  have h1 : distPath a = distPath b := List.append_cancel_right h
  exact List.append_cancel_left h1

theorem compressStage_success (comp : List Nat → Option (List Nat))
    (suffix : List Char) :
    ∀ files (fs : FileSys) (f : List Char) (c o : List Nat),
      files.Nodup →
      (∀ g ∈ files, ∀ g1 ∈ files, distPath g ++ suffix ≠ distPath g1) →
      f ∈ files → fs (distPath f) = some c → comp c = some o →
      compressStage comp suffix files fs (distPath f ++ suffix) = some o := by
  intro files
  induction files with
  | nil => intro fs f c o _ _ hf _ _; exact absurd hf (List.not_mem_nil f)
  | cons g files ih =>
    intro fs f c o hnd hsep hf hc ho
    rw [compressStage_cons]
    rcases List.mem_cons.mp hf with rfl | hf2
    · have hstep : (match fs (distPath f) with
          | none => fs
          | some _ => compressFile comp suffix fs (distPath f)) =
          fsWrite fs (distPath f ++ suffix) o := by
        rw [hc]
        show compressFile comp suffix fs (distPath f) = _
        unfold compressFile
        rw [hc]
        dsimp only
        rw [ho]
      rw [hstep]
      rw [compressStage_frame comp suffix files _ _ ?_]
      · unfold fsWrite
        rw [if_pos rfl]
      · intro f1 hf1 heq
        have : f = f1 := distPath_suffix_inj heq
        subst this
        exact (List.nodup_cons.mp hnd).1 hf1
    · have hgf : g ≠ f := by
        rintro rfl
        exact (List.nodup_cons.mp hnd).1 hf2
      have hread : (match fs (distPath g) with
          | none => fs
          | some _ => compressFile comp suffix fs (distPath g))
            (distPath f) = some c := by
        rw [compressStage_step_frame comp suffix g fs (distPath f) ?_]
        · exact hc
        · exact (hsep g (by simp) f (List.mem_cons_of_mem _ hf2)).symm
      exact ih _ f c o (List.nodup_cons.mp hnd).2
        (fun g1 hg1 g2 hg2 =>
          hsep g1 (List.mem_cons_of_mem _ hg1) g2 (List.mem_cons_of_mem _ hg2))
        hf2 hread ho

theorem compressStage_untouched (comp : List Nat → Option (List Nat))
    (suffix : List Char) :
    ∀ files (fs : FileSys) (f : List Char),
      files.Nodup →
      (∀ g ∈ files, ∀ g1 ∈ files, distPath g ++ suffix ≠ distPath g1) →
      f ∈ files →
      (∀ c, fs (distPath f) = some c → comp c = none) →
      compressStage comp suffix files fs (distPath f ++ suffix) =
        fs (distPath f ++ suffix) := by
  intro files
  induction files with
  | nil => intro fs f _ _ hf _; exact absurd hf (List.not_mem_nil f)
  | cons g files ih =>
    intro fs f hnd hsep hf hfail
    rw [compressStage_cons]
    rcases List.mem_cons.mp hf with rfl | hf2
    · have hstep : (match fs (distPath f) with
          | none => fs
          | some _ => compressFile comp suffix fs (distPath f)) = fs := by
        cases hc : fs (distPath f) with
        | none => rfl
        | some c =>
          show compressFile comp suffix fs (distPath f) = fs
          unfold compressFile
          rw [hc]
          dsimp only
          rw [hfail c hc]
      rw [hstep]
      apply compressStage_frame
      intro f1 hf1 heq
      have : f = f1 := distPath_suffix_inj heq
      subst this
      exact (List.nodup_cons.mp hnd).1 hf1
    · have hgf : g ≠ f := by
        rintro rfl
        exact (List.nodup_cons.mp hnd).1 hf2
      have hne1 : distPath f ≠ distPath g ++ suffix := by
        intro heq
        exact hsep g (by simp) f (List.mem_cons_of_mem _ hf2) heq.symm
      have hne2 : distPath f ++ suffix ≠ distPath g ++ suffix := by
        intro heq
        exact hgf (distPath_suffix_inj heq).symm
      rw [ih _ f (List.nodup_cons.mp hnd).2
        (fun g1 hg1 g2 hg2 =>
          hsep g1 (List.mem_cons_of_mem _ hg1) g2 (List.mem_cons_of_mem _ hg2))
        hf2 ?_]
      · exact compressStage_step_frame comp suffix g fs _ hne2
      · intro c hc
        rw [compressStage_step_frame comp suffix g fs _ hne1] at hc
        exact hfail c hc

/-- Each concrete artifact list is duplicate-free and no artifact path
collides with a source path. -/
theorem algFiles_separated (alg : Alg) :
    (algFiles alg).Nodup ∧
    (∀ g ∈ algFiles alg, ∀ g1 ∈ algFiles alg,
      distPath g ++ algSuffix alg ≠ distPath g1) := by
  cases alg <;> exact ⟨by decide, by decide⟩

/-! ## Claim C5 -/

/-- C5: for every file of the artifact list that is present, and any
codec whose decompressor inverts its compressor, the stage stores exactly
the compressor's output at the sibling path (source path plus the
algorithm suffix), so the artifact decompresses to exactly the original
bytes. -/
theorem compression_roundtrip (alg : Alg)
    (comp decomp : List Nat → Option (List Nat)) (fs : FileSys)
    (f : List Char) (c o : List Nat)
    (hround : ∀ b out, comp b = some out → decomp out = some b)
    (hf : f ∈ algFiles alg) (hc : fs (distPath f) = some c)
    (ho : comp c = some o) :
    runStage alg comp fs (distPath f ++ algSuffix alg) = some o ∧
    decomp o = some c := by
  obtain ⟨hnd, hsep⟩ := algFiles_separated alg
  exact ⟨compressStage_success comp (algSuffix alg) (algFiles alg) fs f c o
    hnd hsep hf hc ho, hround c o ho⟩

theorem compression_roundtrip_witness :
    runStage Alg.brotli (fun b => some b.reverse)
      (fun p => if p = "dist/index.html".toList then some [1, 2, 3] else none)
      ("dist/index.html.br".toList) = some [3, 2, 1] ∧
    (fun b : List Nat => some b.reverse) [3, 2, 1] = some [1, 2, 3] := by
  have h := compression_roundtrip Alg.brotli
    (fun b => some b.reverse) (fun b => some b.reverse)
    (fun p => if p = "dist/index.html".toList then some [1, 2, 3] else none)
    "index.html".toList [1, 2, 3] [3, 2, 1]
    (by
      intro b out hb
      simp only [Option.some.injEq] at hb
      rw [← hb]
      simp)
    (by decide) (by decide) (by decide)
  exact h

/-! ## Claim C7 -/

/-- C7: the Compression Stage is best effort.  A missing listed file is
skipped (its sibling artifact is left exactly as it was) and every other
listed file still gets processed; a per-file codec failure likewise
leaves that artifact untouched without stopping the remaining work.  The
stage is a total function of the file system, so it never fails the
build. -/
theorem compression_stage_best_effort (alg : Alg)
    (comp : List Nat → Option (List Nat)) (fs : FileSys) (f g : List Char)
    (hf : f ∈ algFiles alg) (hg : g ∈ algFiles alg) :
    (fs (distPath f) = none →
      runStage alg comp fs (distPath f ++ algSuffix alg) =
        fs (distPath f ++ algSuffix alg)) ∧
    (∀ c o, fs (distPath g) = some c → comp c = some o →
      runStage alg comp fs (distPath g ++ algSuffix alg) = some o) ∧
    (∀ c, fs (distPath f) = some c → comp c = none →
      runStage alg comp fs (distPath f ++ algSuffix alg) =
        fs (distPath f ++ algSuffix alg)) := by
  obtain ⟨hnd, hsep⟩ := algFiles_separated alg
  refine ⟨?_, ?_, ?_⟩
  · intro hmiss
    apply compressStage_untouched comp (algSuffix alg) (algFiles alg) fs f
      hnd hsep hf
    intro c hc
    rw [hmiss] at hc
    exact absurd hc (by simp)
  · intro c o hc ho
    exact compressStage_success comp (algSuffix alg) (algFiles alg) fs g c o
      hnd hsep hg hc ho
  · intro c hc hfail
    apply compressStage_untouched comp (algSuffix alg) (algFiles alg) fs f
      hnd hsep hf
    intro c1 hc1
    rw [hc] at hc1
    obtain rfl : c = c1 := by simpa using hc1
    exact hfail

theorem compression_stage_best_effort_witness :
    runStage Alg.gzip (fun b => some (b ++ b))
      (fun p => if p = "dist/index.html".toList then some [5] else none)
      (distPath "bmarwell-apache.asc".toList ++ algSuffix Alg.gzip) = none ∧
    runStage Alg.gzip (fun b => some (b ++ b))
      (fun p => if p = "dist/index.html".toList then some [5] else none)
      (distPath "index.html".toList ++ algSuffix Alg.gzip) = some [5, 5] := by
  have h := compression_stage_best_effort Alg.gzip (fun b => some (b ++ b))
    (fun p => if p = "dist/index.html".toList then some [5] else none)
    "bmarwell-apache.asc".toList "index.html".toList
    (by decide) (by decide)
  constructor
  · have h1 := h.1 (by decide)
    rw [h1]
    decide
  · exact h.2.1 [5] [5, 5] (by decide) (by decide)

/-! ## Lemmas for the Reference Rewriter (claim C4) -/

theorem matchToks_lit_cons_none {l : List Char} {ts : List PTok}
    {s : List Char} (h : ¬ l.isPrefixOf s) :
    matchToks (PTok.lit l :: ts) s = none := by
  simp only [matchToks, if_neg h]

/-- Any successful match contains every literal token of the pattern. -/
theorem matchToks_lit_mem_infix {ts : List PTok} {s m z l : List Char}
    (h : matchToks ts s = some (m, z)) (hmem : PTok.lit l ∈ ts) :
    l <:+: m := by
  induction ts generalizing s m z with
  | nil => exact absurd hmem (List.not_mem_nil _)
  | cons t ts ih =>
    cases t with
    | lit l0 =>
      simp only [matchToks] at h
      split at h
      · cases hm : matchToks ts (s.drop l0.length) with
        | none => rw [hm] at h; exact absurd h (by simp)
        | some mr =>
          rw [hm] at h
          obtain ⟨m1, r1⟩ := mr
          simp only [Option.some.injEq, Prod.mk.injEq] at h
          rcases List.mem_cons.mp hmem with heq | hmem2
          · have e : l0 = l := by injection heq with e; exact e.symm
            rw [← h.1, ← e]
            exact (List.prefix_append l0 m1).isInfix
          · have hi := ih hm hmem2
            rw [← h.1]
            exact hi.trans (List.suffix_append l0 m1).isInfix
      · exact absurd h (by simp)
    | star cls =>
      simp only [matchToks] at h
      cases hm : matchToks ts (s.dropWhile cls) with
      | none => rw [hm] at h; exact absurd h (by simp)
      | some mr =>
        rw [hm] at h
        obtain ⟨m1, r1⟩ := mr
        simp only [Option.some.injEq, Prod.mk.injEq] at h
        have hmem2 : PTok.lit l ∈ ts := by
          rcases List.mem_cons.mp hmem with heq | hmem2
          · exact absurd heq (by simp)
          · exact hmem2
        have hi := ih hm hmem2
        rw [← h.1]
        exact hi.trans (List.suffix_append (s.takeWhile cls) m1).isInfix
    | plus cls =>
      simp only [matchToks] at h
      split at h
      · exact absurd h (by simp)
      · cases hm : matchToks ts (s.dropWhile cls) with
        | none => rw [hm] at h; exact absurd h (by simp)
        | some mr =>
          rw [hm] at h
          obtain ⟨m1, r1⟩ := mr
          simp only [Option.some.injEq, Prod.mk.injEq] at h
          have hmem2 : PTok.lit l ∈ ts := by
            rcases List.mem_cons.mp hmem with heq | hmem2
            · exact absurd heq (by simp)
            · exact hmem2
          have hi := ih hm hmem2
          rw [← h.1]
          exact hi.trans (List.suffix_append (s.takeWhile cls) m1).isInfix

/-- If no suffix of `s` matches, the substitution is the identity. -/
theorem replaceAllP_id_of_none (p : List PTok) (r : List Char) :
    ∀ s : List Char, (∀ t, t <:+ s → matchToks p t = none) →
      replaceAllP p r s = s := by
  intro s
  induction s with
  | nil => intro _; rfl
  | cons c cs ih =>
    intro hnone
    rw [replaceAllP_cons_none (hnone (c :: cs) (List.suffix_refl _))]
    rw [ih (fun t ht => hnone t (ht.trans (List.suffix_cons c cs)))]

/-- A substitution whose pattern has a literal containing the placeholder
URL is the identity on any document free of the placeholder. -/
theorem url_step_id (p : List PTok) (r : List Char) (l : List Char)
    (hmem : PTok.lit l ∈ p) (hurl : urlG <:+: l) (s : List Char)
    (hs : ¬ urlG <:+: s) : replaceAllP p r s = s := by
  apply replaceAllP_id_of_none
  intro t ht
  cases hM : matchToks p t with
  | none => rfl
  | some mz =>
    obtain ⟨m, z⟩ := mz
    exfalso
    apply hs
    have h1 : l <:+: m := matchToks_lit_mem_infix hM hmem
    have h2 : m <+: t := ⟨z, (matchToks_eq_append hM).symm⟩
    exact ((hurl.trans h1).trans h2.isInfix).trans ht.isInfix

theorem takeWhile_all_append_cons {cls : Char → Bool} {w : List Char}
    (hw : ∀ ch ∈ w, cls ch = true) {b : Char} (hb : cls b = false)
    (t : List Char) :
    (w ++ b :: t).takeWhile cls = w ∧ (w ++ b :: t).dropWhile cls = b :: t := by
  induction w with
  | nil => simp [List.takeWhile_cons, List.dropWhile_cons, hb]
  | cons x w ih =>
    have hx : cls x = true := hw x (by simp)
    obtain ⟨ih1, ih2⟩ := ih (fun ch hch => hw ch (by simp [hch]))
    constructor
    · rw [List.cons_append, List.takeWhile_cons, if_pos hx, ih1]
    · rw [List.cons_append, List.dropWhile_cons, if_pos hx, ih2]

/-- Evaluation of the dimension-pattern matcher on a well-formed subject:
the prefix literal, a nonempty class run, then the closing literal whose
first character is outside the class; greedy matching consumes exactly
the run. -/
theorem matchToks_og_eval (A : List Char) (cls : Char → Bool)
    {D : List Char} (hD : D ≠ []) (hcls : ∀ ch ∈ D, cls ch = true)
    {b : Char} (hb : cls b = false) (bt X : List Char) :
    matchToks [PTok.lit A, PTok.plus cls, PTok.lit (b :: bt)]
      (A ++ (D ++ ((b :: bt) ++ X))) =
      some (A ++ (D ++ ((b :: bt) ++ ([] : List Char))), X) := by
  have hpre : A.isPrefixOf (A ++ (D ++ ((b :: bt) ++ X))) = true := by
    rw [List.isPrefixOf_iff_prefix]
    exact List.prefix_append _ _
  have hsub : (A ++ (D ++ ((b :: bt) ++ X))).drop A.length =
      D ++ (b :: (bt ++ X)) := by
    rw [List.drop_left]
    simp
  obtain ⟨htake, hdropW⟩ := takeWhile_all_append_cons hcls hb (bt ++ X)
  have hpre2 : (b :: bt).isPrefixOf (b :: (bt ++ X)) = true := by
    rw [List.isPrefixOf_iff_prefix]
    exact ⟨X, by simp⟩
  have hdrop2 : (b :: (bt ++ X)).drop (b :: bt).length = X := by
    have e : b :: (bt ++ X) = (b :: bt) ++ X := by simp
    rw [e, List.drop_left]
  simp only [matchToks, hpre, if_true, hsub, htake, hdropW, hpre2, hdrop2, hD,
    if_false]

/-- Shape of any dimension-pattern match: literal prefix, nonempty class
run, closing literal. -/
theorem matchToks_og_shape {A B s m z : List Char} {cls : Char → Bool}
    (h : matchToks [PTok.lit A, PTok.plus cls, PTok.lit B] s = some (m, z)) :
    ∃ D, m = A ++ (D ++ (B ++ ([] : List Char))) ∧ D ≠ [] ∧
      ∀ ch ∈ D, cls ch = true := by
  simp only [matchToks] at h
  split at h
  · split at h
    · rename_i m1 r1 heq
      simp only [Option.some.injEq, Prod.mk.injEq] at h
      obtain ⟨hm, hz⟩ := h
      split at heq
      · exact absurd heq (by simp)
      · rename_i hne
        split at heq
        · rename_i m2 r2 heq3
          simp only [Option.some.injEq, Prod.mk.injEq] at heq
          obtain ⟨hm1, hr1⟩ := heq
          split at heq3
          · simp only [Option.some.injEq, Prod.mk.injEq] at heq3
            obtain ⟨hm2, hr2⟩ := heq3
            refine ⟨(s.drop A.length).takeWhile cls, ?_, hne, ?_⟩
            · rw [← hm, ← hm1, ← hm2]
            · intro ch hch
              exact List.mem_takeWhile_imp hch
          · exact absurd heq3 (by simp)
        · rename_i heq3
          split at heq3
          · exact absurd heq3 (by simp)
          · exact absurd heq (by simp)
    · exact absurd h (by simp)
  · exact absurd h (by simp)

/-- Greedy-match transfer: if `m` was matched somewhere and is a prefix of
another subject, the matcher matches exactly `m` there too. -/
theorem matchToks_og_transfer {A s m z s1 : List Char} {cls : Char → Bool}
    {b : Char} {bt : List Char} (hb : cls b = false)
    (h : matchToks [PTok.lit A, PTok.plus cls, PTok.lit (b :: bt)] s =
      some (m, z))
    (hpre : m <+: s1) :
    matchToks [PTok.lit A, PTok.plus cls, PTok.lit (b :: bt)] s1 =
      some (m, s1.drop m.length) := by
  obtain ⟨D, hm, hD, hcls⟩ := matchToks_og_shape h
  obtain ⟨w, hw⟩ := hpre
  have hs1 : s1 = A ++ (D ++ ((b :: bt) ++ w)) := by
    rw [← hw, hm]
    simp
  have hdrop : s1.drop m.length = w := by
    rw [← hw, List.drop_left]
  rw [hdrop, hs1, matchToks_og_eval A cls hD hcls hb bt w, hm]

/-- Any match of a pattern headed by a literal makes the literal a prefix
of the subject; in particular the subject starts with the literal's first
character. -/
theorem matchToks_head {p : List PTok} {t m z : List Char} {a0 : Char}
    (hshape : ∀ s m1 z1, matchToks p s = some (m1, z1) →
      m1 ≠ [] ∧ m1.head? = some a0 ∧ ∀ ch ∈ m1.tail, ch ≠ a0)
    (h : matchToks p t = some (m, z)) : t.head? = some a0 := by
  obtain ⟨hne, hhead, _⟩ := hshape t m z h
  have ht := matchToks_eq_append h
  rw [ht]
  cases m with
  | nil => exact absurd rfl hne
  | cons x xs => simpa using hhead

/-- First-match decomposition of the scanner output. -/
theorem replaceAllP_decomp (q : List PTok) (rq : List Char)
    (hqne : ∀ s m z, matchToks q s = some (m, z) → m ≠ []) :
    ∀ cs, replaceAllP q rq cs = cs ∨
      ∃ pre m rest, cs = pre ++ (m ++ rest) ∧ m ≠ [] ∧
        replaceAllP q rq cs = pre ++ (rq ++ replaceAllP q rq rest) := by
  intro cs
  induction cs with
  | nil => left; rfl
  | cons c cs ih =>
    cases hM : matchToks q (c :: cs) with
    | some mz =>
      obtain ⟨m, rest⟩ := mz
      have hne := hqne _ _ _ hM
      right
      refine ⟨[], m, rest, ?_, hne, ?_⟩
      · simpa using matchToks_eq_append hM
      · rw [replaceAllP_cons_match hM hne]
        simp
    | none =>
      rcases ih with h1 | ⟨pre, m, rest, hcs, hne, hout⟩
      · left
        rw [replaceAllP_cons_none hM, h1]
      · right
        refine ⟨c :: pre, m, rest, by simp [hcs], hne, ?_⟩
        rw [replaceAllP_cons_none hM, hout]
        simp

/-- Failure preservation: if the matcher for `p` fails at a position, it
still fails there after another substitution (pattern `q`, replacement
`rq`) rewrote the rest of the document — provided every `p`-match starts
with the marker character `a0`, carries no other `a0`, and `rq` also
starts with `a0`. -/
theorem match_none_preserved (p q : List PTok) (rq : List Char) (a0 : Char)
    (hshape : ∀ s m z, matchToks p s = some (m, z) →
      m ≠ [] ∧ m.head? = some a0 ∧ ∀ ch ∈ m.tail, ch ≠ a0)
    (htr : ∀ s m z s1, matchToks p s = some (m, z) → m <+: s1 →
      matchToks p s1 = some (m, s1.drop m.length))
    (hqne : ∀ s m z, matchToks q s = some (m, z) → m ≠ [])
    (hrq0 : rq.head? = some a0)
    (c : Char) (cs : List Char)
    (hnone : matchToks p (c :: cs) = none) :
    matchToks p (c :: replaceAllP q rq cs) = none := by
  rcases replaceAllP_decomp q rq hqne cs with hid | ⟨pre, m6, rest, hcs, hne6, hout⟩
  · rw [hid]
    exact hnone
  · rw [hout]
    cases hM : matchToks p (c :: (pre ++ (rq ++ replaceAllP q rq rest))) with
    | none => rfl
    | some mz =>
      exfalso
      obtain ⟨m2, z2⟩ := mz
      obtain ⟨hm2ne, hm2h, hm2t⟩ := hshape _ _ _ hM
      have hsplit := matchToks_eq_append hM
      have hm2pre : m2 <+: c :: (pre ++ (rq ++ replaceAllP q rq rest)) :=
        ⟨z2, hsplit.symm⟩
      have hcp : (c :: pre) <+: c :: (pre ++ (rq ++ replaceAllP q rq rest)) :=
        ⟨rq ++ replaceAllP q rq rest, by simp⟩
      by_cases hlen : m2.length ≤ (c :: pre).length
      · have hm2cp : m2 <+: c :: pre :=
          List.prefix_of_prefix_length_le hm2pre hcp hlen
        have hm2cs : m2 <+: c :: cs := by
          rw [hcs]
          exact hm2cp.trans ⟨m6 ++ rest, by simp⟩
        have hsome := htr _ _ _ _ hM hm2cs
        rw [hnone] at hsome
        exact absurd hsome (by simp)
      · push_neg at hlen
        have hcpm2 : (c :: pre) <+: m2 :=
          List.prefix_of_prefix_length_le hcp hm2pre (le_of_lt hlen)
        obtain ⟨m2x, hm2x⟩ := hcpm2
        have hm2xne : m2x ≠ [] := by
          intro he
          rw [he, List.append_nil] at hm2x
          rw [← hm2x] at hlen
          simp at hlen
        have heq2 : m2x ++ z2 = rq ++ replaceAllP q rq rest := by
          have h1 : (c :: pre) ++ (rq ++ replaceAllP q rq rest) = m2 ++ z2 := by
            simpa using hsplit
          rw [← hm2x, List.append_assoc] at h1
          exact (List.append_cancel_left h1).symm
        cases m2x with
        | nil => exact hm2xne rfl
        | cons x xs =>
          have hx : x = a0 := by
            have h1 : ((x :: xs) ++ z2).head? = (rq ++ replaceAllP q rq rest).head? := by
              rw [heq2]
            cases hq : rq with
            | nil => rw [hq] at hrq0; exact absurd hrq0 (by simp)
            | cons y ys =>
              rw [hq] at hrq0 h1
              simp only [List.cons_append, List.head?_cons] at h1 hrq0
              injection h1 with e1
              injection hrq0 with e2
              exact e1.trans e2
          have hxmem : x ∈ m2.tail := by
            have : m2 = c :: (pre ++ (x :: xs)) := by
              rw [← hm2x]
              simp
            rw [this]
            simp
          exact hm2t x hxmem hx

theorem okay_drop {p : List PTok} {r s : List Char} (h : Okay p r s)
    (j : Nat) : Okay p r (s.drop j) := by
  intro i m z hM
  rw [List.drop_drop] at hM
  exact h (j + i) m z hM

theorem okay_nil (p : List PTok) (r : List Char)
    (hpne : ∀ s m z, matchToks p s = some (m, z) → m ≠ []) :
    Okay p r [] := by
  intro i m z hM
  rw [List.drop_nil] at hM
  have hne := hpne _ _ _ hM
  have hsp := matchToks_eq_append hM
  exact absurd (List.append_eq_nil.mp hsp.symm).1 hne

/-- A document in which every match equals the replacement is unchanged
by the substitution. -/
theorem replaceAllP_eq_self_of_okay (p : List PTok) (r : List Char)
    (hpne : ∀ s m z, matchToks p s = some (m, z) → m ≠ []) :
    ∀ n s, s.length ≤ n → Okay p r s → replaceAllP p r s = s := by
  intro n
  induction n with
  | zero =>
    intro s h1 _
    have hs : s = [] := List.length_eq_zero.mp (Nat.le_zero.mp h1)
    rw [hs]
    rfl
  | succ n ih =>
    intro s hlen hok
    cases s with
    | nil => rfl
    | cons c cs =>
      cases hM : matchToks p (c :: cs) with
      | none =>
        rw [replaceAllP_cons_none hM]
        have hcs : Okay p r cs := by
          have : cs = (c :: cs).drop 1 := rfl
          rw [this]
          exact okay_drop hok 1
        rw [ih cs (by simpa using Nat.succ_le_succ_iff.mp (by simpa using hlen)) hcs]
      | some mz =>
        obtain ⟨m, rest⟩ := mz
        have hne := hpne _ _ _ hM
        have hmr : m = r := hok 0 m rest (by simpa using hM)
        rw [replaceAllP_cons_match hM hne]
        have hsp := matchToks_eq_append hM
        have hrest_ok : Okay p r rest := by
          have he : rest = (c :: cs).drop m.length := by
            rw [hsp, List.drop_left]
          rw [he]
          exact okay_drop hok _
        have hrl : rest.length ≤ n := by
          have h2 : (c :: cs).length = m.length + rest.length := by
            rw [hsp, List.length_append]
          have hml : 0 < m.length := List.length_pos.mpr hne
          simp only [List.length_cons] at h2 hlen
          omega
        rw [ih rest hrl hrest_ok, hsp, hmr]

/-- After running a substitution whose replacement is itself a match,
every match left in the document is the replacement. -/
theorem okay_after_replace (p : List PTok) (r : List Char) (a0 : Char)
    (hshape : ∀ s m z, matchToks p s = some (m, z) →
      m ≠ [] ∧ m.head? = some a0 ∧ ∀ ch ∈ m.tail, ch ≠ a0)
    (htr : ∀ s m z s1, matchToks p s = some (m, z) → m <+: s1 →
      matchToks p s1 = some (m, s1.drop m.length))
    (hself : ∀ X, matchToks p (r ++ X) = some (r, X))
    (hr0 : r.head? = some a0)
    (hrtail : ∀ ch ∈ r.tail, ch ≠ a0) :
    ∀ n s, s.length ≤ n → Okay p r (replaceAllP p r s) := by
  have hpne : ∀ s m z, matchToks p s = some (m, z) → m ≠ [] :=
    fun s m z h => (hshape s m z h).1
  intro n
  induction n with
  | zero =>
    intro s h1
    have hs : s = [] := List.length_eq_zero.mp (Nat.le_zero.mp h1)
    rw [hs, replaceAllP_nil]
    exact okay_nil p r hpne
  | succ n ih =>
    intro s hlen
    cases s with
    | nil =>
      rw [replaceAllP_nil]
      exact okay_nil p r hpne
    | cons c cs =>
      simp only [List.length_cons] at hlen
      cases hM : matchToks p (c :: cs) with
      | some mz =>
        obtain ⟨m, rest⟩ := mz
        have hne := hpne _ _ _ hM
        rw [replaceAllP_cons_match hM hne]
        have hrest_len : rest.length ≤ n := by
          have hsp := matchToks_eq_append hM
          have h2 : (c :: cs).length = m.length + rest.length := by
            rw [hsp, List.length_append]
          have hml : 0 < m.length := List.length_pos.mpr hne
          simp only [List.length_cons] at h2
          omega
        intro i m2 z2 hM2
        rcases Nat.eq_zero_or_pos i with rfl | hipos
        · rw [List.drop_zero, hself] at hM2
          simp only [Option.some.injEq, Prod.mk.injEq] at hM2
          exact hM2.1.symm
        · rcases Nat.lt_or_ge i r.length with hilt | hige
          · exfalso
            have hdr : (r ++ replaceAllP p r rest).drop i =
                r.drop i ++ replaceAllP p r rest := by
              rw [List.drop_append_eq_append_drop,
                Nat.sub_eq_zero_of_le (le_of_lt hilt), List.drop_zero]
            rw [hdr] at hM2
            have hhead := matchToks_head hshape hM2
            have hdr_ne : r.drop i ≠ [] := by
              intro he
              have := List.drop_eq_nil_iff.mp he
              omega
            obtain ⟨x, xs, hxx⟩ : ∃ x xs, r.drop i = x :: xs := by
              cases hd : r.drop i with
              | nil => exact absurd hd hdr_ne
              | cons x xs => exact ⟨x, xs, rfl⟩
            rw [hxx] at hhead
            simp only [List.cons_append, List.head?_cons] at hhead
            have hx : x = a0 := by injection hhead
            have hxmem : x ∈ r.tail := by
              have h1 : r.drop i = r.tail.drop (i - 1) := by
                rw [← List.drop_one, List.drop_drop]
                congr 1
                omega
              have h2 : x ∈ r.drop i := by rw [hxx]; simp
              rw [h1] at h2
              exact (List.drop_suffix (i - 1) r.tail).sublist.subset h2
            exact hrtail x hxmem hx
          · have hdr : (r ++ replaceAllP p r rest).drop i =
                (replaceAllP p r rest).drop (i - r.length) := by
              rw [List.drop_append_eq_append_drop,
                List.drop_eq_nil_of_le hige, List.nil_append]
            rw [hdr] at hM2
            exact ih rest hrest_len (i - r.length) m2 z2 hM2
      | none =>
        rw [replaceAllP_cons_none hM]
        intro i m2 z2 hM2
        cases i with
        | zero =>
          rw [List.drop_zero] at hM2
          have hnone2 := match_none_preserved p p r a0 hshape htr hpne hr0
            c cs hM
          rw [hnone2] at hM2
          exact absurd hM2 (by simp)
        | succ j =>
          rw [List.drop_succ_cons] at hM2
          exact ih cs (by omega) j m2 z2 hM2

/-- A substitution leaves any marker-free region untouched and in place. -/
theorem replaceAllP_no_marker_prefix (q : List PTok) (rq : List Char)
    (a0 : Char)
    (hqhead : ∀ t m z, matchToks q t = some (m, z) → t.head? = some a0) :
    ∀ u v, (∀ ch ∈ u, ch ≠ a0) →
      replaceAllP q rq (u ++ v) = u ++ replaceAllP q rq v := by
  intro u
  induction u with
  | nil => intro v _; simp
  | cons x u ih =>
    intro v hu
    have hx : x ≠ a0 := hu x (by simp)
    have hnone : matchToks q (x :: (u ++ v)) = none := by
      cases hM : matchToks q (x :: (u ++ v)) with
      | none => rfl
      | some mz =>
        obtain ⟨m, z⟩ := mz
        have hh := hqhead _ _ _ hM
        simp only [List.head?_cons] at hh
        exact absurd (by injection hh) hx
    rw [List.cons_append, replaceAllP_cons_none hnone,
      ih v (fun ch hch => hu ch (by simp [hch])), List.cons_append]

/-- Stability under one pattern is preserved by running the other
substitution, as long as both patterns hang off the same marker
character, the other replacement starts with the marker and carries no
further marker, and the first pattern cannot match inside the other
replacement. -/
theorem okay_preserved_other (p q : List PTok) (r rq : List Char) (a0 : Char)
    (hshape : ∀ s m z, matchToks p s = some (m, z) →
      m ≠ [] ∧ m.head? = some a0 ∧ ∀ ch ∈ m.tail, ch ≠ a0)
    (htr : ∀ s m z s1, matchToks p s = some (m, z) → m <+: s1 →
      matchToks p s1 = some (m, s1.drop m.length))
    (hself : ∀ X, matchToks p (r ++ X) = some (r, X))
    (hqne : ∀ s m z, matchToks q s = some (m, z) → m ≠ [])
    (hqhead : ∀ t m z, matchToks q t = some (m, z) → t.head? = some a0)
    (hrq0 : rq.head? = some a0)
    (hrqtail : ∀ ch ∈ rq.tail, ch ≠ a0)
    (hpq_none : ∀ X, matchToks p (rq ++ X) = none)
    (hrtail : ∀ ch ∈ r.tail, ch ≠ a0) :
    ∀ n y, y.length ≤ n → Okay p r y → Okay p r (replaceAllP q rq y) := by
  have hpne : ∀ s m z, matchToks p s = some (m, z) → m ≠ [] :=
    fun s m z h => (hshape s m z h).1
  intro n
  induction n with
  | zero =>
    intro y h1 _
    have hy : y = [] := List.length_eq_zero.mp (Nat.le_zero.mp h1)
    rw [hy, replaceAllP_nil]
    exact okay_nil p r hpne
  | succ n ih =>
    intro y hlen hok
    cases y with
    | nil =>
      rw [replaceAllP_nil]
      exact okay_nil p r hpne
    | cons c cs =>
      simp only [List.length_cons] at hlen
      cases hM : matchToks q (c :: cs) with
      | some mz =>
        obtain ⟨m6, rest6⟩ := mz
        have hne6 := hqne _ _ _ hM
        rw [replaceAllP_cons_match hM hne6]
        have hsp := matchToks_eq_append hM
        have hrest_len : rest6.length ≤ n := by
          have h2 : (c :: cs).length = m6.length + rest6.length := by
            rw [hsp, List.length_append]
          have hml : 0 < m6.length := List.length_pos.mpr hne6
          simp only [List.length_cons] at h2
          omega
        have hrest_ok : Okay p r rest6 := by
          have he : rest6 = (c :: cs).drop m6.length := by
            rw [hsp, List.drop_left]
          rw [he]
          exact okay_drop hok _
        have hZok := ih rest6 hrest_len hrest_ok
        intro i m2 z2 hM2
        rcases Nat.eq_zero_or_pos i with rfl | hipos
        · rw [List.drop_zero, hpq_none] at hM2
          exact absurd hM2 (by simp)
        · rcases Nat.lt_or_ge i rq.length with hilt | hige
          · exfalso
            have hdr : (rq ++ replaceAllP q rq rest6).drop i =
                rq.drop i ++ replaceAllP q rq rest6 := by
              rw [List.drop_append_eq_append_drop,
                Nat.sub_eq_zero_of_le (le_of_lt hilt), List.drop_zero]
            rw [hdr] at hM2
            have hhead := matchToks_head hshape hM2
            have hdr_ne : rq.drop i ≠ [] := by
              intro he
              have := List.drop_eq_nil_iff.mp he
              omega
            obtain ⟨x, xs, hxx⟩ : ∃ x xs, rq.drop i = x :: xs := by
              cases hd : rq.drop i with
              | nil => exact absurd hd hdr_ne
              | cons x xs => exact ⟨x, xs, rfl⟩
            rw [hxx] at hhead
            simp only [List.cons_append, List.head?_cons] at hhead
            have hx : x = a0 := by injection hhead
            have hxmem : x ∈ rq.tail := by
              have h1 : rq.drop i = rq.tail.drop (i - 1) := by
                rw [← List.drop_one, List.drop_drop]
                congr 1
                omega
              have h2 : x ∈ rq.drop i := by rw [hxx]; simp
              rw [h1] at h2
              exact (List.drop_suffix (i - 1) rq.tail).sublist.subset h2
            exact hrqtail x hxmem hx
          · have hdr : (rq ++ replaceAllP q rq rest6).drop i =
                (replaceAllP q rq rest6).drop (i - rq.length) := by
              rw [List.drop_append_eq_append_drop,
                List.drop_eq_nil_of_le hige, List.nil_append]
            rw [hdr] at hM2
            exact hZok (i - rq.length) m2 z2 hM2
      | none =>
        rw [replaceAllP_cons_none hM]
        intro i m2 z2 hM2
        cases i with
        | succ j =>
          rw [List.drop_succ_cons] at hM2
          have hcs_ok : Okay p r cs := by
            have he : cs = (c :: cs).drop 1 := rfl
            rw [he]
            exact okay_drop hok 1
          exact ih cs (by omega) hcs_ok j m2 z2 hM2
        | zero =>
          rw [List.drop_zero] at hM2
          cases hMp : matchToks p (c :: cs) with
          | none =>
            have hn2 := match_none_preserved p q rq a0 hshape htr hqne hrq0
              c cs hMp
            rw [hn2] at hM2
            exact absurd hM2 (by simp)
          | some myz =>
            obtain ⟨my, zy⟩ := myz
            have hmyr : my = r := hok 0 my zy (by simpa using hMp)
            have hsp := matchToks_eq_append hMp
            rw [hmyr] at hsp
            cases hrr : r with
            | nil =>
              have := hshape _ _ _ hMp
              rw [hmyr, hrr] at this
              exact absurd rfl this.1
            | cons rh rt =>
              rw [hrr, List.cons_append] at hsp
              have hc : c = rh := by injection hsp
              have hcs2 : cs = rt ++ zy := by injection hsp with _ e
              have hrw : replaceAllP q rq cs = rt ++ replaceAllP q rq zy := by
                rw [hcs2]
                apply replaceAllP_no_marker_prefix q rq a0 hqhead
                intro ch hch
                apply hrtail
                rw [hrr]
                simpa using hch
              rw [hrw] at hM2
              have he2 : c :: (rt ++ replaceAllP q rq zy) =
                  r ++ replaceAllP q rq zy := by
                rw [hrr, hc]
                simp
              rw [he2, hself] at hM2
              simp only [Option.some.injEq, Prod.mk.injEq] at hM2
              exact hM2.1.symm.trans hrr

theorem isDigitC_ne_marker {ch : Char} (h : isDigitC ch = true) :
    ch ≠ '<' := by
  intro he
  rw [he] at h
  exact absurd h (by decide)

theorem head?_append_left {u v : List Char} {x : Char}
    (h : u.head? = some x) : (u ++ v).head? = some x := by
  cases u with
  | nil => exact absurd h (by simp)
  | cons a as => simpa using h

theorem tail_append_of_ne_nil {u v : List Char} (h : u ≠ []) :
    (u ++ v).tail = u.tail ++ v := by
  cases u with
  | nil => exact absurd rfl h
  | cons a as => rfl

/-- Character discipline of any dimension-pattern match: it starts with
the marker and carries the marker nowhere else. -/
theorem og_shape_chars {A B : List Char} {cls : Char → Bool} {a0 : Char}
    (hA : A.head? = some a0)
    (hAt : ∀ ch ∈ A.tail, ch ≠ a0)
    (hcls0 : ∀ ch, cls ch = true → ch ≠ a0)
    (hB : ∀ ch ∈ B, ch ≠ a0) :
    ∀ s m z,
      matchToks [PTok.lit A, PTok.plus cls, PTok.lit B] s = some (m, z) →
      m ≠ [] ∧ m.head? = some a0 ∧ ∀ ch ∈ m.tail, ch ≠ a0 := by
  intro s m z h
  obtain ⟨D, hm, hD, hcls⟩ := matchToks_og_shape h
  cases hA2 : A with
  | nil => rw [hA2] at hA; exact absurd hA (by simp)
  | cons a at2 =>
    rw [hA2] at hA hAt hm
    simp only [List.head?_cons] at hA
    have ha : a = a0 := by injection hA
    simp only [List.tail_cons] at hAt
    rw [List.cons_append] at hm
    subst hm
    refine ⟨by simp, by simp [ha], ?_⟩
    intro ch hch
    simp only [List.tail_cons] at hch
    rcases List.mem_append.mp hch with h1 | h2
    · exact hAt ch h1
    · rcases List.mem_append.mp h2 with h3 | h4
      · exact hcls0 ch (hcls ch h3)
      · rw [List.append_nil] at h4
        exact hB ch h4

theorem not_prefix_of_take {A u : List Char} (n : Nat)
    (hn : n ≤ u.length) (hne : ¬ A.take n <+: u) :
    ∀ X : List Char, ¬ A <+: u ++ X := by
  intro X hA
  have h2 : A.take n <+: u ++ X := (List.take_prefix n A).trans hA
  have h3 : u <+: u ++ X := List.prefix_append u X
  have hlen : (A.take n).length ≤ u.length := by
    rw [List.length_take]
    exact le_trans (min_le_left _ _) hn
  exact hne (List.prefix_of_prefix_length_le h2 h3 hlen)

theorem ogw_shape : ∀ s m z, matchToks pOgW s = some (m, z) →
    m ≠ [] ∧ m.head? = some '<' ∧ ∀ ch ∈ m.tail, ch ≠ '<' :=
  og_shape_chars (by decide) (by decide)
    (fun _ h => isDigitC_ne_marker h) (by decide)

theorem ogh_shape : ∀ s m z, matchToks pOgH s = some (m, z) →
    m ≠ [] ∧ m.head? = some '<' ∧ ∀ ch ∈ m.tail, ch ≠ '<' :=
  og_shape_chars (by decide) (by decide)
    (fun _ h => isDigitC_ne_marker h) (by decide)

theorem ogClose_cons : ogClose = '"' :: ['>'] := by decide

theorem ogw_transfer : ∀ s m z s1, matchToks pOgW s = some (m, z) →
    m <+: s1 → matchToks pOgW s1 = some (m, s1.drop m.length) := by
  intro s m z s1 h hp
  have hpat : pOgW =
      [PTok.lit ogwPre, PTok.plus isDigitC, PTok.lit ('"' :: ['>'])] := by
    unfold pOgW
    rw [ogClose_cons]
  rw [hpat] at h ⊢
  exact matchToks_og_transfer (by decide) h hp

theorem ogh_transfer : ∀ s m z s1, matchToks pOgH s = some (m, z) →
    m <+: s1 → matchToks pOgH s1 = some (m, s1.drop m.length) := by
  intro s m z s1 h hp
  have hpat : pOgH =
      [PTok.lit oghPre, PTok.plus isDigitC, PTok.lit ('"' :: ['>'])] := by
    unfold pOgH
    rw [ogClose_cons]
  rw [hpat] at h ⊢
  exact matchToks_og_transfer (by decide) h hp

theorem ogw_self {w : List Char} (hw : w ≠ [])
    (hwd : ∀ ch ∈ w, isDigitC ch = true) :
    ∀ X, matchToks pOgW (rOgW w ++ X) = some (rOgW w, X) := by
  intro X
  have hpat : pOgW =
      [PTok.lit ogwPre, PTok.plus isDigitC, PTok.lit ('"' :: ['>'])] := by
    unfold pOgW
    rw [ogClose_cons]
  have harg : rOgW w ++ X = ogwPre ++ (w ++ (('"' :: ['>']) ++ X)) := by
    simp [rOgW, ogClose_cons]
  have hres : rOgW w = ogwPre ++ (w ++ (('"' :: ['>']) ++ ([] : List Char))) := by
    simp [rOgW, ogClose_cons]
  rw [hpat, harg, matchToks_og_eval ogwPre isDigitC hw hwd
    (show isDigitC '"' = false by decide) ['>'] X, ← hres]

theorem ogh_self {w : List Char} (hw : w ≠ [])
    (hwd : ∀ ch ∈ w, isDigitC ch = true) :
    ∀ X, matchToks pOgH (rOgH w ++ X) = some (rOgH w, X) := by
  intro X
  have hpat : pOgH =
      [PTok.lit oghPre, PTok.plus isDigitC, PTok.lit ('"' :: ['>'])] := by
    unfold pOgH
    rw [ogClose_cons]
  have harg : rOgH w ++ X = oghPre ++ (w ++ (('"' :: ['>']) ++ X)) := by
    simp [rOgH, ogClose_cons]
  have hres : rOgH w = oghPre ++ (w ++ (('"' :: ['>']) ++ ([] : List Char))) := by
    simp [rOgH, ogClose_cons]
  rw [hpat, harg, matchToks_og_eval oghPre isDigitC hw hwd
    (show isDigitC '"' = false by decide) ['>'] X, ← hres]

theorem og_repl_head {Pre w : List Char} (h0 : Pre.head? = some '<') :
    (Pre ++ w ++ ogClose).head? = some '<' :=
  head?_append_left (head?_append_left h0)

theorem og_repl_tail {Pre w : List Char} (h0 : Pre ≠ [])
    (ht : ∀ ch ∈ Pre.tail, ch ≠ '<')
    (hwd : ∀ ch ∈ w, isDigitC ch = true) :
    ∀ ch ∈ (Pre ++ w ++ ogClose).tail, ch ≠ '<' := by
  intro ch hch
  rw [tail_append_of_ne_nil (by simp [h0]), tail_append_of_ne_nil h0] at hch
  rcases List.mem_append.mp hch with h1 | h2
  · rcases List.mem_append.mp h1 with h3 | h4
    · exact ht ch h3
    · exact isDigitC_ne_marker (hwd ch h4)
  · have hcl : ∀ c ∈ ogClose, c ≠ '<' := by decide
    exact hcl ch h2

theorem pOgW_none_on_rOgH (h : List Char) :
    ∀ X, matchToks pOgW (rOgH h ++ X) = none := by
  intro X
  have harg : rOgH h ++ X = oghPre ++ ((h ++ ogClose) ++ X) := by
    simp [rOgH]
  rw [harg]
  show matchToks (PTok.lit ogwPre :: [PTok.plus isDigitC, PTok.lit ogClose])
    (oghPre ++ ((h ++ ogClose) ++ X)) = none
  apply matchToks_lit_cons_none
  rw [List.isPrefixOf_iff_prefix]
  exact not_prefix_of_take ogwPre.length (by decide) (by decide) _

theorem pOgH_none_on_rOgW (w : List Char) :
    ∀ X, matchToks pOgH (rOgW w ++ X) = none := by
  intro X
  have harg : rOgW w ++ X = ogwPre ++ ((w ++ ogClose) ++ X) := by
    simp [rOgW]
  rw [harg]
  show matchToks (PTok.lit oghPre :: [PTok.plus isDigitC, PTok.lit ogClose])
    (ogwPre ++ ((w ++ ogClose) ++ X)) = none
  apply matchToks_lit_cons_none
  rw [List.isPrefixOf_iff_prefix]
  exact not_prefix_of_take ogwPre.length (by decide) (by decide) _

/-! ## Claim C4 -/

/-- C4 (amended): re-running `updateHTMLReferences` on its own output
(with the same master state and dimensions) is byte-identical provided no
occurrence of the placeholder URL remains after the first run.  The four
URL substitutions then find nothing, and every dimension-tag match left
in the document is exactly the dimension replacement, so the two
dimension substitutions rewrite each of their matches to itself. -/
theorem updateHTML_idempotent_of_no_placeholder
    (af wStr hStr : List Char) (hasWebp : Bool) (html : List Char)
    (hw : wStr ≠ []) (hwd : ∀ ch ∈ wStr, isDigitC ch = true)
    (hh : hStr ≠ []) (hhd : ∀ ch ∈ hStr, isDigitC ch = true)
    (hnoUrl : ¬ urlG <:+: updateHTML af hasWebp wStr hStr html) :
    updateHTML af hasWebp wStr hStr (updateHTML af hasWebp wStr hStr html) =
      updateHTML af hasWebp wStr hStr html := by
  set X := replaceAllP pImage (rImage af) (replaceAllP pContent (rContent af)
    (replaceAllP pSrc (rSrc af)
      (if hasWebp then replaceAllP pSrcset rSrcset html else html))) with hX
  have hHdef : updateHTML af hasWebp wStr hStr html =
      replaceAllP pOgH (rOgH hStr) (replaceAllP pOgW (rOgW wStr) X) := by
    rw [hX]
    rfl
  set H := updateHTML af hasWebp wStr hStr html with hH
  have e1 : (if hasWebp then replaceAllP pSrcset rSrcset H else H) = H := by
    cases hasWebp with
    | false => rfl
    | true =>
      show replaceAllP pSrcset rSrcset H = H
      exact url_step_id pSrcset rSrcset _ (by simp [pSrcset])
        ⟨"srcset=\"".toList, "\"".toList, rfl⟩ H hnoUrl
  have e2 : replaceAllP pSrc (rSrc af) H = H :=
    url_step_id pSrc (rSrc af) _ (by simp [pSrc])
      ⟨"src=\"".toList, "\"".toList, rfl⟩ H hnoUrl
  have e3 : replaceAllP pContent (rContent af) H = H :=
    url_step_id pContent (rContent af) _ (by simp [pContent])
      ⟨"content=\"".toList, "\"".toList, rfl⟩ H hnoUrl
  have e4 : replaceAllP pImage (rImage af) H = H :=
    url_step_id pImage (rImage af) ("\"".toList ++ urlG ++ "\"".toList)
      (by simp [pImage]) ⟨"\"".toList, "\"".toList, rfl⟩ H hnoUrl
  have hokW_X : Okay pOgW (rOgW wStr) (replaceAllP pOgW (rOgW wStr) X) :=
    okay_after_replace pOgW (rOgW wStr) '<' ogw_shape ogw_transfer
      (ogw_self hw hwd) (og_repl_head (by decide))
      (og_repl_tail (by decide) (by decide) hwd) X.length X (le_refl _)
  have hokW_H : Okay pOgW (rOgW wStr) H := by
    rw [hHdef]
    exact okay_preserved_other pOgW pOgH (rOgW wStr) (rOgH hStr) '<'
      ogw_shape ogw_transfer (ogw_self hw hwd)
      (fun s m z h2 => (ogh_shape s m z h2).1)
      (fun t m z h2 => matchToks_head ogh_shape h2)
      (og_repl_head (by decide))
      (og_repl_tail (by decide) (by decide) hhd)
      (pOgW_none_on_rOgH hStr)
      (og_repl_tail (by decide) (by decide) hwd)
      (replaceAllP pOgW (rOgW wStr) X).length _ (le_refl _) hokW_X
  have hokH_H : Okay pOgH (rOgH hStr) H := by
    rw [hHdef]
    exact okay_after_replace pOgH (rOgH hStr) '<' ogh_shape ogh_transfer
      (ogh_self hh hhd) (og_repl_head (by decide))
      (og_repl_tail (by decide) (by decide) hhd)
      (replaceAllP pOgW (rOgW wStr) X).length _ (le_refl _)
  have e5 : replaceAllP pOgW (rOgW wStr) H = H :=
    replaceAllP_eq_self_of_okay pOgW (rOgW wStr)
      (fun s m z h2 => (ogw_shape s m z h2).1) H.length H (le_refl _) hokW_H
  have e6 : replaceAllP pOgH (rOgH hStr) H = H :=
    replaceAllP_eq_self_of_okay pOgH (rOgH hStr)
      (fun s m z h2 => (ogh_shape s m z h2).1) H.length H (le_refl _) hokH_H
  calc updateHTML af hasWebp wStr hStr H
      = replaceAllP pOgH (rOgH hStr) (replaceAllP pOgW (rOgW wStr)
          (replaceAllP pImage (rImage af) (replaceAllP pContent (rContent af)
            (replaceAllP pSrc (rSrc af)
              (if hasWebp then replaceAllP pSrcset rSrcset H else H))))) := rfl
    _ = H := by rw [e1, e2, e3, e4, e5, e6]

set_option maxRecDepth 1000000 in
/-- C4 counterexample: the claim as stated fails.  In the document
`"image":"<URL>"image":"<URL>"` the first run rewrites the leading
JSON-LD occurrence, and the quote ending the inserted replacement joins
with the following text to form a new `"image":"<URL>"` occurrence that
still contains the placeholder; the second run rewrites that one, so the
second output differs from the first. -/
theorem updateHTML_not_idempotent :
    updateHTML "avatar.png".toList true "460".toList "460".toList
      (updateHTML "avatar.png".toList true "460".toList "460".toList
        ("\"image\":\"".toList ++ urlG ++ "\"image\":\"".toList ++ urlG ++
          "\"".toList)) ≠
    updateHTML "avatar.png".toList true "460".toList "460".toList
      ("\"image\":\"".toList ++ urlG ++ "\"image\":\"".toList ++ urlG ++
        "\"".toList) := by
  decide

set_option maxRecDepth 1000000 in
theorem updateHTML_idempotent_witness :
    updateHTML "avatar.png".toList true "460".toList "460".toList
      (updateHTML "avatar.png".toList true "460".toList "460".toList
        ("<img src=\"".toList ++ urlG ++ "\">".toList)) =
    updateHTML "avatar.png".toList true "460".toList "460".toList
      ("<img src=\"".toList ++ urlG ++ "\">".toList) :=
  updateHTML_idempotent_of_no_placeholder
    "avatar.png".toList "460".toList "460".toList true
    ("<img src=\"".toList ++ urlG ++ "\">".toList)
    (by decide) (by decide) (by decide) (by decide) (by decide)
